import Mathlib

/-!
Verification of the comparison-viewer word-level diff engine.

Shallow embedding of the diff core of `src/ArticleDiffViewer.jsx` (tokenizer,
Myers shortest-edit-script engine, patch-aware reconciler) and of the
duplicated viewer copy in `src/src/ArticleDiffViewer.jsx`.

Strings are Lean `String`s; token sequences are `List String`.  JS `undefined`
appearing in array reads is modelled with `Option`; JS numbers occurring in the
algorithm are integers throughout (`Int`), since the code only ever adds 1,
compares, and indexes.  While-loops are modelled by structurally recursive
functions with an explicit iteration budget chosen to be an exact upper bound
on the number of iterations the JS loop performs, so the embedded function
agrees with the JS loop on every input (the budget runs out exactly when the
loop condition turns false), except for the reconciler's main loop, which can
genuinely run forever; there the budget makes the function return `none` in
place of divergence (see `ewpLoop`).
-/

/-- The character class of the JS regex `\s` (ECMAScript WhiteSpace and
LineTerminator), by code point: TAB, LF, VT, FF, CR, SP, NBSP, OGHAM SP,
EN QUAD..HAIR SP (0x2000-0x200A), LS, PS, NNBSP, MMSP, IDEOGRAPHIC SP, BOM. -/
def jsWhitespace (c : Char) : Bool :=
  [9, 10, 11, 12, 13, 32, 160, 0x1680, 0x2028, 0x2029,
    0x202F, 0x205F, 0x3000, 0xFEFF].contains c.toNat
  || (0x2000 ≤ c.toNat && c.toNat ≤ 0x200A)

/-- The punctuation alternative of the tokenizer regex
`[.,!?;:"()–—\-\[\]{}]`, by code point:
`.` `,` `!` `?` `;` `:` `"` `(` `)` en dash, em dash, `-`, brackets, braces. -/
def boundaryPunct (c : Char) : Bool :=
  [46, 44, 33, 63, 59, 58, 34, 40, 41, 0x2013, 0x2014,
    45, 91, 93, 123, 125].contains c.toNat

/-- A character at which the tokenizer regex `(\s+|[.,!?;:"()–—\-\[\]{}])`
starts a separator match. -/
def isBoundary (c : Char) : Bool := jsWhitespace c || boundaryPunct c

/-- One step of the split performed by
`text.split(/(\s+|[.,!?;:"()–—\-\[\]{}])/).filter(token => token.length > 0)`:
a maximal whitespace run becomes one token (the regex alternative `\s+` is
greedy), a punctuation character becomes a single-character token, and a
maximal run of non-boundary characters becomes a word token.  Zero-length
fragments are never produced.  The iteration budget is the length of the
character list; every step consumes at least one character, so the budget
never runs out when the function is started by `tokenize`. -/
def tokenizeGo : Nat → List Char → List String
  | _, [] => []
  | 0, _ :: _ => []
  | f + 1, c :: rest =>
    if jsWhitespace c then
      String.mk (c :: rest.takeWhile jsWhitespace) ::
        tokenizeGo f (rest.dropWhile jsWhitespace)
    else if boundaryPunct c then
      String.mk [c] :: tokenizeGo f rest
    else
      String.mk (c :: rest.takeWhile (fun d => !isBoundary d)) ::
        tokenizeGo f (rest.dropWhile (fun d => !isBoundary d))

/-- The tokenizer shared by `computeWordDiff` and `enhanceWithPatches`
(`src/ArticleDiffViewer.jsx`, lines 56-59 and 217-220).  `tokenize("")`
returns `[]` (the JS guard `if (!text) return []` and the split of the empty
string agree on this). -/
def tokenize (s : String) : List String := tokenizeGo s.data.length s.data

/-- A diff operation: a JS record `{ type: 'equal'|'insert'|'delete', text }`. -/
inductive Op where
  | equal (text : String)
  | insert (text : String)
  | delete (text : String)
deriving DecidableEq, Repr

/-- The `text` field of an operation. -/
def Op.text : Op → String
  | .equal t => t
  | .insert t => t
  | .delete t => t

/-- Is this operation `Equal` or `Delete` (the original-side projection)? -/
def Op.isOrigSide : Op → Bool
  | .equal _ => true
  | .delete _ => true
  | .insert _ => false

/-- Is this operation `Equal` or `Insert` (the corrected-side projection)? -/
def Op.isCorrSide : Op → Bool
  | .equal _ => true
  | .delete _ => false
  | .insert _ => true

/-- Is this operation not `Equal` (an insert or a delete)? -/
def Op.isNonEqual : Op → Bool
  | .equal _ => false
  | .insert _ => true
  | .delete _ => true

/-- The token texts of the `Equal`/`Delete` operations, in order. -/
def origTexts (ops : List Op) : List String :=
  (ops.filter Op.isOrigSide).map Op.text

/-- The token texts of the `Equal`/`Insert` operations, in order. -/
def corrTexts (ops : List Op) : List String :=
  (ops.filter Op.isCorrSide).map Op.text

/-- The number of non-`Equal` operations. -/
def nonEqCount (ops : List Op) : Nat := (ops.filter Op.isNonEqual).length

-- ### Tokenizer losslessness (used by several claims)

theorem join_cons (s : String) (l : List String) :
    String.join (s :: l) = s ++ String.join l := by
  have h : ∀ (l : List String) (init : String),
      l.foldl (· ++ ·) init = init ++ l.foldl (· ++ ·) "" := by
    intro l
    induction l with
    | nil => intro init; simp
    | cons x xs ih =>
      intro init
      simp only [List.foldl_cons]
      rw [ih (init ++ x), ih ("" ++ x)]
      simp [String.append_assoc]
  simp only [String.join, List.foldl_cons]
  rw [h l ("" ++ s)]
  simp

theorem string_mk_append (l₁ l₂ : List Char) :
    String.mk (l₁ ++ l₂) = String.mk l₁ ++ String.mk l₂ := by
  apply String.ext
  simp [String.data_append]

theorem dropWhile_len_le (p : α → Bool) (l : List α) :
    (l.dropWhile p).length ≤ l.length := by
  induction l with
  | nil => simp [List.dropWhile]
  | cons a l ih =>
    by_cases h : p a
    · simp only [List.dropWhile_cons_of_pos h, List.length_cons]
      exact le_trans ih (Nat.le_succ _)
    · simp [List.dropWhile_cons_of_neg h]

theorem mk_cons_ne_empty (c : Char) (l : List Char) : String.mk (c :: l) ≠ "" := by
  intro h
  have := congrArg String.data h
  simp at this

theorem tokenizeGo_join_nonempty :
    ∀ (f : Nat) (cs : List Char), cs.length ≤ f →
      String.join (tokenizeGo f cs) = String.mk cs ∧
      ∀ t ∈ tokenizeGo f cs, t ≠ "" := by
  intro f
  induction f with
  | zero =>
    intro cs h
    have : cs = [] := List.length_eq_zero.mp (Nat.le_zero.mp h)
    subst this
    simp [tokenizeGo, String.join]
  | succ f ih =>
    intro cs h
    match cs with
    | [] =>
      simp [tokenizeGo, String.join]
    | c :: rest =>
      have hlen : rest.length ≤ f := Nat.succ_le_succ_iff.mp (by simpa using h)
      by_cases hws : jsWhitespace c
      · have hdrop : (rest.dropWhile jsWhitespace).length ≤ f :=
          le_trans (dropWhile_len_le _ _) hlen
        obtain ⟨hj, hne⟩ := ih _ hdrop
        constructor
        · simp only [tokenizeGo, hws, if_pos]
          rw [join_cons, hj, ← string_mk_append]
          have heq : c :: (rest.takeWhile jsWhitespace ++ rest.dropWhile jsWhitespace)
              = c :: rest := by rw [List.takeWhile_append_dropWhile]
          rw [List.cons_append, heq]
        · intro t ht
          simp only [tokenizeGo, hws, if_pos, List.mem_cons] at ht
          rcases ht with h1 | h2
          · subst h1; exact mk_cons_ne_empty _ _
          · exact hne t h2
      · by_cases hp : boundaryPunct c
        · obtain ⟨hj, hne⟩ := ih rest hlen
          constructor
          · simp only [tokenizeGo, hws, hp, Bool.false_eq_true, not_false_eq_true,
              if_neg, if_pos]
            rw [join_cons, hj, ← string_mk_append]
            simp
          · intro t ht
            simp only [tokenizeGo, hws, hp, Bool.false_eq_true, not_false_eq_true,
              if_neg, if_pos, List.mem_cons] at ht
            rcases ht with h1 | h2
            · subst h1; exact mk_cons_ne_empty _ _
            · exact hne t h2
        · have hdrop : (rest.dropWhile (fun d => !isBoundary d)).length ≤ f :=
            le_trans (dropWhile_len_le _ _) hlen
          obtain ⟨hj, hne⟩ := ih _ hdrop
          constructor
          · simp only [tokenizeGo, hws, hp, Bool.false_eq_true, not_false_eq_true,
              if_neg]
            rw [join_cons, hj, ← string_mk_append]
            have heq : c :: (rest.takeWhile (fun d => !isBoundary d) ++
                rest.dropWhile (fun d => !isBoundary d)) = c :: rest := by
              rw [List.takeWhile_append_dropWhile]
            rw [List.cons_append, heq]
          · intro t ht
            simp only [tokenizeGo, hws, hp, Bool.false_eq_true, not_false_eq_true,
              if_neg, List.mem_cons] at ht
            rcases ht with h1 | h2
            · subst h1; exact mk_cons_ne_empty _ _
            · exact hne t h2

/-- Core losslessness of the tokenizer, on both sides. -/
theorem tokenize_lossless (s : String) :
    String.join (tokenize s) = s ∧ ∀ t ∈ tokenize s, t ≠ "" := by
  have := tokenizeGo_join_nonempty s.data.length s.data le_rfl
  obtain ⟨hj, hn⟩ := this
  refine ⟨?_, hn⟩
  rw [tokenize] at *
  rw [hj]

/-- **C6**: Tokenizer losslessness: for every string `s`, concatenating all
tokens of `tokenize s` with no separator reconstructs `s` exactly, and no
emitted token has zero length. -/
theorem C6_tokenize_lossless (s : String) :
    String.join (tokenize s) = s ∧ ∀ t ∈ tokenize s, t.length ≠ 0 := by
  obtain ⟨hj, hn⟩ := tokenize_lossless s
  refine ⟨hj, fun t ht hlen => hn t ht ?_⟩
  cases t with
  | mk data => simp only [String.length, List.length_eq_zero] at hlen; simp [hlen]

-- ### The Myers shortest-edit-script engine (`myersDiff` / `buildPath`)

/-- JS array indexing `l[i]` with a possibly negative index: out-of-range
reads give `undefined`, modelled as `none`. -/
def jsGetS (l : List String) (i : Int) : Option String :=
  if i < 0 then none else l.get? i.toNat

/-- The mutable map `v` of `myersDiff`, keyed by diagonal index `k`.  A key
that has never been assigned reads as `undefined` (`none`).  The map is only
ever read at single keys and copied, never iterated, so a plain function
models the JS object faithfully. -/
def VMap : Type := Int → Option Int

/-- Initial `v`: only `v[1] = 0` is set. -/
def vInit : VMap := fun k => if k = 1 then some 0 else none

/-- JS assignment `v[k] = x`. -/
def vSet (v : VMap) (k x : Int) : VMap := fun j => if j = k then some x else v j

/-- The JS comparison `v[k-1] < v[k+1]`: if either operand is `undefined`,
the comparison is `NaN < …` or `… < NaN` and yields `false`. -/
def jsLt (o₁ o₂ : Option Int) : Bool :=
  match o₁, o₂ with
  | some x, some y => x < y
  | _, _ => false

/-- Reading a JS number out of `v` at a call site where it is provably
defined (the algorithm never reads an unset key on any input; shown by the
invariants below).  The default is arbitrary. -/
def jsNum (o : Option Int) : Int := o.getD 0

/-- The branch condition
`k === -d || (k !== d && v[k - 1] < v[k + 1])` shared by the forward pass of
`myersDiff` and the backtracking of `buildPath` (with `D` for `d`). -/
def chooseIns (v : VMap) (d : Nat) (k : Int) : Bool :=
  k = -(d : Int) || (k ≠ (d : Int) && jsLt (v (k - 1)) (v (k + 1)))

/-- The start `x` for diagonal `k` at depth `d`:
`x = v[k+1]` (extend from the insert side) or `x = v[k-1] + 1` (delete). -/
def startX (v : VMap) (d : Nat) (k : Int) : Int :=
  if chooseIns v d k then jsNum (v (k + 1)) else jsNum (v (k - 1)) + 1

/-- The snake `while (x < N && y < M && a[x] === b[y]) { x++; y++; }`.
The iteration budget `(N - x).toNat` is exact: every iteration requires
`x < N` and increments `x`, so the budget reaches 0 exactly when `x = N`
and the loop condition is false anyway.  Note `a[x] === b[y]` is `true` in
JS when both reads are `undefined`; `Option` equality models this. -/
def snakeGo (a b : List String) (N M : Int) : Nat → Int → Int → Int × Int
  | 0, x, y => (x, y)
  | f + 1, x, y =>
    if x < N ∧ y < M ∧ jsGetS a x = jsGetS b y then
      snakeGo a b N M f (x + 1) (y + 1)
    else (x, y)

/-- Processing one diagonal `k` of the inner loop of `myersDiff`: choose the
start, snake, store `v[k] = x`; returns the updated map and the final
`(x, y)` used for the termination test `x >= N && y >= M`. -/
def procK (a b : List String) (N M : Int) (d : Nat) (v : VMap) (k : Int) :
    VMap × Int × Int :=
  let x₀ := startX v d k
  let p := snakeGo a b N M (N - x₀).toNat x₀ (x₀ - k)
  (vSet v k p.1, p.1, p.2)

/-- The diagonal indices `k = -d, -d+2, ..., d` of round `d`. -/
def ksList (d : Nat) : List Int :=
  (List.range (d + 1)).map (fun i : Nat => -(d : Int) + 2 * (i : Int))

/-- The inner loop `for (let k = -d; k <= d; k += 2)`.  Returns the map after
the processed diagonals and `true` iff `x >= N && y >= M` fired (early
`return buildPath(...)` in the JS). -/
def innerRun (a b : List String) (N M : Int) (d : Nat) :
    VMap → List Int → VMap × Bool
  | v, [] => (v, false)
  | v, k :: ks =>
    let r := procK a b N M d v k
    if r.2.1 ≥ N ∧ r.2.2 ≥ M then (r.1, true)
    else innerRun a b N M d r.1 ks

/-- The outer loop `for (let d = 0; d <= MAX; d++)`, started with fuel
`MAX + 1` (its exact number of iterations).  Each round first pushes a copy
of `v` onto the trace.  Returns `some (d, trace)` on the early return and
`none` if the loop runs to completion (the JS then returns `[]`). -/
def runFrom (a b : List String) (N M : Int) :
    Nat → Nat → VMap → List VMap → Option (Nat × List VMap)
  | 0, _, _, _ => none
  | fuel + 1, d, v, trace =>
    let trace' := trace ++ [v]
    let r := innerRun a b N M d v (ksList d)
    if r.2 then some (d, trace') else runFrom a b N M fuel (d + 1) r.1 trace'

/-- `trace[D]` (always in range when read by `buildPath`). -/
def traceGet (trace : List VMap) (D : Nat) : VMap :=
  (trace.get? D).getD (fun _ => none)

/-- One backtracking level of `buildPath`: the previous diagonal `prevK` by
the same preference rule as the forward pass, and `prevX = v[prevK]`,
`prevY = prevX - prevK`. -/
def prevOf (v : VMap) (D : Nat) (x y : Int) : Int × Int :=
  let k := x - y
  let prevK := if chooseIns v D k then k + 1 else k - 1
  let prevX := jsNum (v prevK)
  (prevX, prevX - prevK)

/-- JS `a[i]` read as a string where it is provably in range; an
out-of-range read would put `undefined` into the operation text, which JS
string concatenation would render as `"undefined"`. -/
def jsIdx (l : List String) (i : Int) : String :=
  (jsGetS l i).getD "undefined"

/-- The equal-run `while (x > prevX && y > prevY)` of one backtracking level.
Emitted operations are listed in their final (left-to-right) order: the JS
unshifts each new operation in front of the previous ones, so the operation
for the highest position ends up last.  The budget `(x - prevX).toNat` is
exact: every iteration requires `x > prevX` and decrements `x`. -/
def eqRunGo (a : List String) (prevX prevY : Int) :
    Nat → Int → Int → List Op × Int × Int
  | 0, x, y => ([], x, y)
  | f + 1, x, y =>
    if x > prevX ∧ y > prevY then
      let r := eqRunGo a prevX prevY f (x - 1) (y - 1)
      (r.1 ++ [Op.equal (jsIdx a (x - 1))], r.2.1, r.2.2)
    else ([], x, y)

/-- The backtracking loop `for (let D = d; D >= 0; D--)` of `buildPath`.
Level `D`'s operations (one delete/insert when `D > 0`, preceded in the JS
by unshifts of the equal run, hence *followed* here in final order) are
appended after the operations of the levels below it, matching the JS
`unshift` into a single shared array. -/
def bpLoop (a b : List String) (trace : List VMap) : Nat → Int → Int → List Op
  | 0, x, y =>
    let v := traceGet trace 0
    let p := prevOf v 0 x y
    (eqRunGo a p.1 p.2 (x - p.1).toNat x y).1
  | D + 1, x, y =>
    let v := traceGet trace (D + 1)
    let p := prevOf v (D + 1) x y
    let r := eqRunGo a p.1 p.2 (x - p.1).toNat x y
    let x' := r.2.1
    let y' := r.2.2
    if x' > p.1 then
      bpLoop a b trace D (x' - 1) y' ++ (Op.delete (jsIdx a (x' - 1)) :: r.1)
    else
      bpLoop a b trace D x' (y' - 1) ++ (Op.insert (jsIdx b (y' - 1)) :: r.1)

/-- `buildPath(a, b, trace, d)` (`src/ArticleDiffViewer.jsx`, lines 109-146). -/
def buildPath (a b : List String) (trace : List VMap) (d : Nat) : List Op :=
  bpLoop a b trace d (a.length : Int) (b.length : Int)

/-- `myersDiff(a, b)` (`src/ArticleDiffViewer.jsx`, lines 70-107):
`MAX = N + M`, `v = {1: 0}`, run the outer loop; on the early return build
the path, otherwise return `[]`. -/
def myersDiff (a b : List String) : List Op :=
  match runFrom a b (a.length : Int) (b.length : Int)
      (a.length + b.length + 1) 0 vInit [] with
  | some (d, trace) => buildPath a b trace d
  | none => []

/-- `computeWordDiff(original, corrected)`
(`src/ArticleDiffViewer.jsx`, lines 55-68). -/
def computeWordDiff (original corrected : String) : List Op :=
  myersDiff (tokenize original) (tokenize corrected)

-- ### The patch-aware reconciler (`computePatchAwareDiff` / `enhanceWithPatches`)

/-- A patch record; only the `before`/`after` fields matter to the
algorithm (agent and path metadata are ignored by the diff core). -/
structure Patch where
  before : String
  after : String
deriving DecidableEq, Repr

/-- JS `String.prototype.trim()`: strip JS whitespace from both ends. -/
def trimJS (s : String) : String :=
  String.mk ((s.data.dropWhile jsWhitespace).reverse.dropWhile jsWhitespace).reverse

/-- JS `Map.prototype.set`: if the key is present, overwrite its value in
place (keeping the entry's position in insertion order); otherwise append
the new entry at the end.  The change map is modelled as an association
list in insertion order, matching `Map.prototype.entries()`. -/
def jsMapSet (m : List (String × String)) (k v : String) :
    List (String × String) :=
  match m with
  | [] => [(k, v)]
  | (k', v') :: rest =>
    if k' = k then (k, v) :: rest else (k', v') :: jsMapSet rest k v

/-- The change map built by `computePatchAwareDiff`
(`src/ArticleDiffViewer.jsx`, lines 201-209): for each patch, trim both
sides and `set` them unless they are equal (no-op patches are discarded). -/
def buildChanges (patches : List Patch) : List (String × String) :=
  patches.foldl
    (fun m p =>
      let b := trimJS p.before
      let a := trimJS p.after
      if b ≠ a then jsMapSet m b a else m)
    []

/-- JS `l[i]` for a non-negative index. -/
def jsGetN (l : List String) (i : Nat) : Option String := l.get? i

/-- `l.slice(i, i + n)`. -/
def sliceJS (l : List String) (i n : Nat) : List String := (l.drop i).take n

/-- The body of the `for (const [before, after] of changes.entries())` loop
of `enhanceWithPatches` for a single entry, at cursors `oi`/`ci`
(`originalIndex`/`correctedIndex`): in order,
1. full substitution (the original slice joins to `before` and the
   corrected slice joins to `after`): emit deletes of the before-tokens
   then inserts of the after-tokens, advance both cursors;
2. insertion-only (the corrected slice joins to `after` and original does
   not coincidentally have `after` at its cursor): emit inserts, advance
   the corrected cursor;
3. deletion-only (symmetric): emit deletes, advance the original cursor.
Returns `none` when no case fires for this entry. -/
def entryAction (ot ct : List String) (oi ci : Nat) (e : String × String) :
    Option (List Op × Nat × Nat) :=
  let bt := tokenize e.1
  let aft := tokenize e.2
  if oi + bt.length ≤ ot.length ∧
      String.join (sliceJS ot oi bt.length) = String.join bt ∧
      ci + aft.length ≤ ct.length ∧
      String.join (sliceJS ct ci aft.length) = String.join aft then
    some (bt.map Op.delete ++ aft.map Op.insert, oi + bt.length, ci + aft.length)
  else if ci + aft.length ≤ ct.length ∧
      String.join (sliceJS ct ci aft.length) = String.join aft ∧
      (oi ≥ ot.length ∨
        String.join (sliceJS ot oi aft.length) ≠ String.join aft) then
    some (aft.map Op.insert, oi, ci + aft.length)
  else if oi + bt.length ≤ ot.length ∧
      String.join (sliceJS ot oi bt.length) = String.join bt ∧
      (ci ≥ ct.length ∨
        String.join (sliceJS ct ci bt.length) ≠ String.join bt) then
    some (bt.map Op.delete, oi + bt.length, ci)
  else none

/-- The main loop `while (correctedIndex < correctedTokens.length ||
originalIndex < originalTokens.length)` of `enhanceWithPatches`
(`src/ArticleDiffViewer.jsx`, lines 230-323).  Each iteration first scans
the change entries in insertion order (`findSome?` = first entry whose
`entryAction` fires, the JS `break`), and otherwise falls back to the plain
token comparison.  Unlike every other loop of the engine, this one need not
terminate (an entry with an empty tokenization can fire without advancing
either cursor); the budget `ot.length + ct.length` is exact for all
terminating runs — every productive iteration advances the cursor sum by at
least 1 and the loop exits when both cursors reach the ends — and a run
that exhausts it has reached a state it can never leave, so `none` means
the JS loop diverges. -/
def ewpLoop (ot ct : List String) (changes : List (String × String)) :
    Nat → Nat → Nat → List Op → Option (List Op)
  | 0, oi, ci, acc =>
    if ci < ct.length ∨ oi < ot.length then none else some acc
  | fuel + 1, oi, ci, acc =>
    if ci < ct.length ∨ oi < ot.length then
      match changes.findSome? (entryAction ot ct oi ci) with
      | some r => ewpLoop ot ct changes fuel r.2.1 r.2.2 (acc ++ r.1)
      | none =>
        match jsGetN ot oi, jsGetN ct ci with
        | some t, some u =>
          if t = u then ewpLoop ot ct changes fuel (oi + 1) (ci + 1) (acc ++ [Op.equal t])
          else ewpLoop ot ct changes fuel (oi + 1) (ci + 1)
            (acc ++ [Op.delete t, Op.insert u])
        | none, some u => ewpLoop ot ct changes fuel oi (ci + 1) (acc ++ [Op.insert u])
        | some t, none => ewpLoop ot ct changes fuel (oi + 1) ci (acc ++ [Op.delete t])
        | none, none => none
    else some acc

/-- `enhanceWithPatches(original, corrected, changes)`
(`src/ArticleDiffViewer.jsx`, lines 215-326): tokenize both texts and run
the cursor walk from `(0, 0)`.  `none` models divergence of the JS loop. -/
def enhanceWithPatches (original corrected : String)
    (changes : List (String × String)) : Option (List Op) :=
  let ot := tokenize original
  let ct := tokenize corrected
  ewpLoop ot ct changes (ot.length + ct.length) 0 0 []

/-- `computePatchAwareDiff(original, corrected, patches)`
(`src/ArticleDiffViewer.jsx`, lines 192-213): with no patches return the
base word diff, otherwise build the change map and reconcile.  (The JS
guard `!patches || patches.length === 0` is the emptiness test.) -/
def computePatchAwareDiff (original corrected : String)
    (patches : List Patch) : Option (List Op) :=
  if patches.length = 0 then some (computeWordDiff original corrected)
  else enhanceWithPatches original corrected (buildChanges patches)

-- ### The duplicated viewer copy (`src/src/ArticleDiffViewer.jsx`)

/-- Whitespace-run split `original.split(/(\s+)/).filter(t => t.length > 0)`
used by the duplicated viewer: maximal whitespace runs and maximal
non-whitespace runs, in order.  Budget exact as in `tokenizeGo`. -/
def wsSplitGo : Nat → List Char → List String
  | _, [] => []
  | 0, _ :: _ => []
  | f + 1, c :: rest =>
    if jsWhitespace c then
      String.mk (c :: rest.takeWhile jsWhitespace) ::
        wsSplitGo f (rest.dropWhile jsWhitespace)
    else
      String.mk (c :: rest.takeWhile (fun d => !jsWhitespace d)) ::
        wsSplitGo f (rest.dropWhile (fun d => !jsWhitespace d))

/-- The whitespace-preserving fragment list of the duplicated viewer. -/
def wsSplit (s : String) : List String := wsSplitGo s.data.length s.data

namespace Dup

/-- `computePatchAwareDiff` of the duplicated viewer
(`src/src/ArticleDiffViewer.jsx`, lines 146-156).  Its `computeWordDiff` /
`myersDiff` / tokenizer are textually identical to the ones embedded above,
so they are reused.  `!original && !corrected` is the test that both
strings are empty (the only falsy string is `""`); the `patches` argument
is never read. -/
def computePatchAwareDiff (original corrected : String)
    (_patches : List Patch) : List Op :=
  if original = "" ∧ corrected = "" then []
  else if original = corrected then
    (wsSplit original).map Op.equal
  else computeWordDiff original corrected

end Dup

-- ### C4: patch surfacing on the spec's concrete example

/-- **C4**: for `original = "The cat sat"`, `corrected = "The dog sat"` and
`patches = [{before: "cat", after: "dog"}]`, the patch-aware reconciler
emits `Delete("cat")` immediately followed by `Insert("dog")` among its
operations, and both round-trip properties hold for that output. -/
theorem C4_patch_surfacing :
    computePatchAwareDiff "The cat sat" "The dog sat" [⟨"cat", "dog"⟩] =
      some [Op.equal "The", Op.equal " ", Op.delete "cat", Op.insert "dog",
        Op.equal " ", Op.equal "sat"] ∧
    (∃ pre post, [Op.equal "The", Op.equal " ", Op.delete "cat", Op.insert "dog",
        Op.equal " ", Op.equal "sat"] =
      pre ++ [Op.delete "cat", Op.insert "dog"] ++ post) ∧
    String.join (origTexts [Op.equal "The", Op.equal " ", Op.delete "cat",
      Op.insert "dog", Op.equal " ", Op.equal "sat"]) = "The cat sat" ∧
    String.join (corrTexts [Op.equal "The", Op.equal " ", Op.delete "cat",
      Op.insert "dog", Op.equal " ", Op.equal "sat"]) = "The dog sat" := by
  refine ⟨by decide, ⟨[Op.equal "The", Op.equal " "],
    [Op.equal " ", Op.equal "sat"], rfl⟩, by decide, by decide⟩

-- ### C8: empty-input boundary

/-- **C8, counterexample**: the claim says `diff([], tokenize "x y")`
returns *two* `Insert` operations and no others; in fact `tokenize "x y"`
has three tokens (`"x"`, `" "`, `"y"`) and the diff returns three
`Insert`s, so no two-element all-insert list equals it. -/
theorem C8_counterexample :
    ¬ ∃ t₁ t₂, myersDiff [] (tokenize "x y") = [Op.insert t₁, Op.insert t₂] := by
  rintro ⟨t₁, t₂, h⟩
  have h3 : myersDiff [] (tokenize "x y") =
      [Op.insert "x", Op.insert " ", Op.insert "y"] := by decide
  rw [h3] at h
  have := congrArg List.length h
  simp at this

/-- **C8, amended**: `tokenize ""` is empty; `diff([], [])` is empty; and
`diff([], tokenize "x y")` returns *three* `Insert` operations
(`"x"`, `" "`, `"y"`) and no others. -/
theorem C8_empty_boundary :
    tokenize "" = [] ∧ myersDiff [] [] = [] ∧
    myersDiff [] (tokenize "x y") =
      [Op.insert "x", Op.insert " ", Op.insert "y"] := by
  refine ⟨rfl, by decide, by decide⟩

-- ### C5: delegation when no effective patch remains

/-- **C5, counterexample**: for `original = "a b"`, `corrected = "b"` and
the all-no-op patch list `[{before: "x", after: "x"}]`, the patch-aware
path does *not* return the plain word diff: it runs the reconciler walk
with an empty change map, producing
`[Delete "a", Insert "b", Delete " ", Delete "b"]`, while the plain diff is
`[Delete "a", Delete " ", Equal "b"]`. -/
theorem C5_counterexample :
    computePatchAwareDiff "a b" "b" [⟨"x", "x"⟩] ≠
      some (computeWordDiff "a b" "b") := by
  decide

theorem buildChanges_all_noop (ps : List Patch)
    (h : ∀ p ∈ ps, trimJS p.before = trimJS p.after) :
    buildChanges ps = [] := by
  have hgen : ∀ (l : List Patch) (m : List (String × String)),
      (∀ p ∈ l, trimJS p.before = trimJS p.after) →
      l.foldl (fun m p =>
        let b := trimJS p.before
        let a := trimJS p.after
        if b ≠ a then jsMapSet m b a else m) m = m := by
    intro l
    induction l with
    | nil => intro m _; rfl
    | cons p l ih =>
      intro m hall
      simp only [List.foldl_cons]
      rw [if_neg (by simp [hall p (List.mem_cons_self p l)])]
      exact ih m (fun q hq => hall q (List.mem_cons_of_mem p hq))
  exact hgen ps [] h

/-- **C5, amended**: delegation to the plain diff holds for the *empty*
patch list: `computePatchAwareDiff original corrected []` is exactly
`computeWordDiff original corrected`.  A *nonempty* list of no-op patches
instead runs the reconciler walk with an empty change map, which can differ
from the plain diff (see the counterexample). -/
theorem C5_delegation :
    (∀ original corrected,
      computePatchAwareDiff original corrected [] =
        some (computeWordDiff original corrected)) ∧
    (∀ original corrected ps, ps ≠ [] →
      (∀ p ∈ ps, trimJS p.before = trimJS p.after) →
      computePatchAwareDiff original corrected ps =
        enhanceWithPatches original corrected []) := by
  constructor
  · intro o c; rfl
  · intro o c ps hne hnoop
    have hlen : ¬ ps.length = 0 := by
      simpa using fun h => hne (List.length_eq_zero.mp h)
    simp only [computePatchAwareDiff, if_neg hlen, buildChanges_all_noop ps hnoop]

/-- Witness for `C5_delegation` at a concrete input: the no-op list
`[{before: "x", after: "x"}]` on `("a b", "b")` yields the empty-change-map
walk (which here differs from the plain diff). -/
theorem C5_delegation_witness :
    computePatchAwareDiff "a b" "b" [⟨"x", "x"⟩] =
      enhanceWithPatches "a b" "b" [] :=
  C5_delegation.2 "a b" "b" [⟨"x", "x"⟩] (by decide) (by decide)

-- ### C9: the duplicated viewer copy ignores patches

/-- **C9**: in the duplicated viewer copy, `computePatchAwareDiff` never
reads its `patches` argument: for unequal inputs it returns exactly
`computeWordDiff original corrected`, and for equal inputs it returns the
whitespace-split fragments of `original`, each as an `Equal` operation. -/
theorem C9_dup_ignores_patches (original corrected : String)
    (patches : List Patch) :
    Dup.computePatchAwareDiff original corrected patches =
      if original = corrected then (wsSplit original).map Op.equal
      else computeWordDiff original corrected := by
  by_cases h : original = corrected
  · subst h
    by_cases he : original = ""
    · subst he
      simp [Dup.computePatchAwareDiff, wsSplit, wsSplitGo]
    · simp [Dup.computePatchAwareDiff, he]
  · have hne : ¬(original = "" ∧ corrected = "") := by
      rintro ⟨h1, h2⟩; exact h (h1.trans h2.symm)
    simp [Dup.computePatchAwareDiff, hne, h]

-- ### C7 / C2 counterexamples: the reconciler can diverge

/-- **C7, counterexample**: on `original = "a"`, `corrected = "a b"` with
the patch `{before: "x", after: ""}` (non-no-op, but with an empty trimmed
`after`), the reconciler's cursor walk stops making progress once the
original side is exhausted: the insertion-only case fires for the entry
with an empty token list, emitting nothing and advancing nothing.  The
embedded loop returns `none` (fuel exhausted in a state it can never
leave; see `ewpLoop_stuck_diverges` for the divergence proper), so no
operation sequence is produced. -/
theorem C7_counterexample :
    computePatchAwareDiff "a" "a b" [⟨"x", ""⟩] = none := by
  decide

/-- The state reached in the `C7_counterexample` run is a fixpoint of the
loop: with any fuel at all, the loop never returns a result.  This is the
divergence of the JS `while` loop, not an artifact of the fuel. -/
theorem ewpLoop_stuck_diverges (fuel : Nat) (acc : List Op) :
    ewpLoop (tokenize "a") (tokenize "a b") [("x", "")] fuel 1 1 acc = none := by
  have hta : tokenize "a" = ["a"] := by decide
  have htab : tokenize "a b" = ["a", " ", "b"] := by decide
  rw [hta, htab]
  induction fuel generalizing acc with
  | zero => simp [ewpLoop]
  | succ fuel ih =>
    have hfind : ([("x", "")]).findSome?
        (entryAction ["a"] ["a", " ", "b"] 1 1) = some ([], 1, 1) := by decide
    simp only [ewpLoop, hfind]
    rw [if_pos (by norm_num), List.append_nil]
    exact ih acc

/-- **C2, counterexample**: on `original = "a b"`, `corrected = "a"` with
the patch `{before: "", after: "z"}` (empty trimmed `before`), the
reconciler diverges (the deletion-only case fires with an empty token list
once the corrected side is exhausted), so there is no operation sequence
for which the round-trip could hold. -/
theorem C2_counterexample :
    ¬ ∃ ops, computePatchAwareDiff "a b" "a" [⟨"", "z"⟩] = some ops := by
  rintro ⟨ops, h⟩
  have : computePatchAwareDiff "a b" "a" [⟨"", "z"⟩] = none := by decide
  rw [this] at h
  exact Option.noConfusion h

-- ### C10: duplicate before-texts in the change set

/-- The non-no-op patches of a list, as (trimmed before, trimmed after)
pairs in input order. -/
def nonNoOps (ps : List Patch) : List (String × String) :=
  ps.filterMap (fun p =>
    let b := trimJS p.before
    let a := trimJS p.after
    if b ≠ a then some (b, a) else none)

/-- Modelled from the claim's description of JS `Map` insertion semantics:
each distinct key appears once, at the position of its FIRST occurrence in
the input sequence, mapped to the value of its LAST occurrence. -/
def firstPosLastVal : List (String × String) → List (String × String)
  | [] => []
  | (k, v) :: rest =>
    (k, (((rest.filter (fun e => e.1 = k)).getLast?).getD (k, v)).2) ::
      firstPosLastVal (rest.filter (fun e => e.1 ≠ k))
termination_by l => l.length
decreasing_by
  simp only [List.length_cons]
  exact Nat.lt_succ_of_le (List.length_filter_le _ _)

theorem getLast?_cons (x : α) (l : List α) :
    (x :: l).getLast? = some (l.getLast?.getD x) := by
  induction l generalizing x with
  | nil => rfl
  | cons y l ih =>
    rw [List.getLast?_cons_cons, ih y]
    simp

/-- The JS-`Map` fold over an association list with head entry `(k, v)`:
later `k`-entries overwrite the head value in place, all other entries fold
into the tail. -/
theorem mapFold_cons (rest : List (String × String)) :
    ∀ (k v : String) (m : List (String × String)),
      rest.foldl (fun m e => jsMapSet m e.1 e.2) ((k, v) :: m) =
        (k, (((rest.filter (fun e => e.1 = k)).getLast?).getD (k, v)).2) ::
          (rest.filter (fun e => e.1 ≠ k)).foldl
            (fun m e => jsMapSet m e.1 e.2) m := by
  induction rest with
  | nil => intro k v m; rfl
  | cons e t ih =>
    intro k v m
    obtain ⟨k', v'⟩ := e
    simp only [List.foldl_cons, List.filter_cons]
    by_cases h : k = k'
    · subst h
      have hset : jsMapSet ((k, v) :: m) k v' = (k, v') :: m := by
        simp [jsMapSet]
      have hf1 : (decide ((k, v').1 = k)) = true := by simp
      have hf2 : (decide ((k, v').1 ≠ k)) = false := by simp
      rw [hset, ih k v' m, hf1, hf2]
      simp only [if_pos, Bool.false_eq_true, if_neg, not_false_eq_true,
        getLast?_cons]
      simp
    · have hset : jsMapSet ((k, v) :: m) k' v' = (k, v) :: jsMapSet m k' v' := by
        simp [jsMapSet, h]
      have hf1 : (decide ((k', v').1 = k)) = false := by
        simp; exact fun hc => h hc.symm
      have hf2 : (decide ((k', v').1 ≠ k)) = true := by
        simp; exact fun hc => h hc.symm
      rw [hset, ih k v (jsMapSet m k' v'), hf1, hf2]
      simp only [Bool.false_eq_true, if_neg, not_false_eq_true, if_pos,
        List.foldl_cons]

theorem mapFold_eq_firstPosLastVal :
    ∀ (n : Nat) (l : List (String × String)), l.length ≤ n →
      l.foldl (fun m e => jsMapSet m e.1 e.2) [] = firstPosLastVal l := by
  intro n
  induction n with
  | zero =>
    intro l h
    have : l = [] := List.length_eq_zero.mp (Nat.le_zero.mp h)
    subst this; simp [firstPosLastVal]
  | succ n ih =>
    intro l h
    match l with
    | [] => simp [firstPosLastVal]
    | (k, v) :: rest =>
      have hlen : rest.length ≤ n := Nat.succ_le_succ_iff.mp (by simpa using h)
      have h0 : jsMapSet [] k v = [(k, v)] := rfl
      simp only [List.foldl_cons, h0]
      rw [mapFold_cons rest k v []]
      rw [ih _ (le_trans (List.length_filter_le _ _) hlen)]
      rw [firstPosLastVal]

theorem nonNoOps_cons (p : Patch) (t : List Patch) :
    nonNoOps (p :: t) =
      if trimJS p.before ≠ trimJS p.after
      then (trimJS p.before, trimJS p.after) :: nonNoOps t
      else nonNoOps t := by
  by_cases h : trimJS p.before ≠ trimJS p.after
  · simp [nonNoOps, h]
  · simp [nonNoOps, h]

theorem buildChanges_fold :
    ∀ (l : List Patch) (m : List (String × String)),
      l.foldl (fun m p =>
        let b := trimJS p.before
        let a := trimJS p.after
        if b ≠ a then jsMapSet m b a else m) m =
      (nonNoOps l).foldl (fun m e => jsMapSet m e.1 e.2) m := by
  intro l
  induction l with
  | nil => intro m; rfl
  | cons p t ih =>
    intro m
    simp only [List.foldl_cons, nonNoOps_cons]
    by_cases h : trimJS p.before ≠ trimJS p.after
    · rw [if_pos h, if_pos h, List.foldl_cons]
      exact ih _
    · rw [if_neg h, if_neg h]
      exact ih _

theorem buildChanges_eq (ps : List Patch) :
    buildChanges ps = firstPosLastVal (nonNoOps ps) := by
  rw [buildChanges, buildChanges_fold ps []]
  exact mapFold_eq_firstPosLastVal (nonNoOps ps).length _ le_rfl

/-- **C10**: the change set resolves duplicate before-texts by JS `Map`
semantics — the built association list is exactly the list in which every
distinct trimmed before-text appears once, at the position of its FIRST
occurrence among the non-no-op patches, mapped to the trimmed after-text of
its LAST occurrence (`firstPosLastVal`); and the reconciler output is a
function of the patch-list emptiness and the built change set only, so the
after-texts of the overwritten earlier duplicates cannot influence it. -/
theorem C10_duplicate_before_resolution :
    (∀ ps, buildChanges ps = firstPosLastVal (nonNoOps ps)) ∧
    (∀ original corrected ps ps', ps.length = ps'.length →
      buildChanges ps = buildChanges ps' →
      computePatchAwareDiff original corrected ps =
        computePatchAwareDiff original corrected ps') := by
  refine ⟨buildChanges_eq, ?_⟩
  intro o c ps ps' hlen hbc
  by_cases h : ps.length = 0
  · rw [computePatchAwareDiff, computePatchAwareDiff, if_pos h,
      if_pos (hlen ▸ h)]
  · rw [computePatchAwareDiff, computePatchAwareDiff, if_neg h,
      if_neg (hlen ▸ h), hbc]

/-- Witness for `C10_duplicate_before_resolution`: two patch lists that
differ only in the after-text of the EARLIER duplicate of before-text
`"a"` build the same change set (`[("a", "e"), ("c", "d")]`: first
position, last value), and the reconciler output agrees on them. -/
theorem C10_witness :
    buildChanges [⟨"a", "b"⟩, ⟨"c", "d"⟩, ⟨"a", "e"⟩] =
      firstPosLastVal (nonNoOps [⟨"a", "b"⟩, ⟨"c", "d"⟩, ⟨"a", "e"⟩]) ∧
    computePatchAwareDiff "a c" "e d" [⟨"a", "b"⟩, ⟨"c", "d"⟩, ⟨"a", "e"⟩] =
      computePatchAwareDiff "a c" "e d" [⟨"a", "zzz"⟩, ⟨"c", "d"⟩, ⟨"a", "e"⟩] :=
  ⟨C10_duplicate_before_resolution.1 _,
    C10_duplicate_before_resolution.2 "a c" "e d" _ _ (by decide) (by decide)⟩

-- ### C7 (amended): termination of the reconciler walk

theorem join_nil : String.join [] = "" := rfl

theorem tokenize_ne_nil {s : String} (h : s ≠ "") : tokenize s ≠ [] := by
  intro hc
  obtain ⟨hj, _⟩ := tokenize_lossless s
  rw [hc, join_nil] at hj
  exact h hj.symm

theorem mem_jsMapSet {m : List (String × String)} {k v : String}
    {x : String × String} (h : x ∈ jsMapSet m k v) : x ∈ m ∨ x = (k, v) := by
  induction m with
  | nil =>
    simp only [jsMapSet, List.mem_singleton] at h
    exact Or.inr h
  | cons e rest ih =>
    obtain ⟨k', v'⟩ := e
    simp only [jsMapSet] at h
    by_cases hk : k' = k
    · rw [if_pos hk] at h
      rcases List.mem_cons.mp h with h1 | h2
      · exact Or.inr h1
      · exact Or.inl (List.mem_cons_of_mem _ h2)
    · rw [if_neg hk] at h
      rcases List.mem_cons.mp h with h1 | h2
      · exact Or.inl (h1 ▸ List.mem_cons_self _ _)
      · rcases ih h2 with h3 | h4
        · exact Or.inl (List.mem_cons_of_mem _ h3)
        · exact Or.inr h4

theorem mem_mapFold {l : List (String × String)} :
    ∀ {m : List (String × String)} {x : String × String},
      x ∈ l.foldl (fun m e => jsMapSet m e.1 e.2) m → x ∈ m ∨ x ∈ l := by
  induction l with
  | nil => intro m x h; exact Or.inl h
  | cons e t ih =>
    intro m x h
    simp only [List.foldl_cons] at h
    rcases ih h with h1 | h2
    · rcases mem_jsMapSet h1 with h3 | h4
      · exact Or.inl h3
      · exact Or.inr (h4 ▸ List.mem_cons_self _ _)
    · exact Or.inr (List.mem_cons_of_mem _ h2)

theorem mem_buildChanges {ps : List Patch} {x : String × String}
    (h : x ∈ buildChanges ps) : x ∈ nonNoOps ps := by
  rw [buildChanges, buildChanges_fold ps []] at h
  rcases mem_mapFold h with h1 | h2
  · exact absurd h1 (List.not_mem_nil x)
  · exact h2

theorem mem_nonNoOps {ps : List Patch} {e : String × String}
    (h : e ∈ nonNoOps ps) :
    ∃ p ∈ ps, e = (trimJS p.before, trimJS p.after) ∧
      trimJS p.before ≠ trimJS p.after := by
  rw [nonNoOps] at h
  obtain ⟨p, hp, he⟩ := List.mem_filterMap.mp h
  simp only at he
  by_cases hq : trimJS p.before ≠ trimJS p.after
  · rw [if_pos hq] at he
    exact ⟨p, hp, (Option.some_injective _ he).symm, hq⟩
  · rw [if_neg hq] at he
    exact absurd he (Option.noConfusion)

/-- What a successful `entryAction` tells us about the cursors: they never
move backwards, a cursor that moved is still within its token list, and —
provided the entry's two tokenizations are both nonempty — the cursor sum
strictly increases. -/
theorem entryAction_spec {ot ct : List String} {oi ci : Nat}
    {e : String × String} {r : List Op × Nat × Nat}
    (h : entryAction ot ct oi ci e = some r) :
    oi ≤ r.2.1 ∧ ci ≤ r.2.2 ∧
    (r.2.1 = oi ∨ r.2.1 ≤ ot.length) ∧ (r.2.2 = ci ∨ r.2.2 ≤ ct.length) ∧
    (tokenize e.1 ≠ [] → tokenize e.2 ≠ [] → oi + ci < r.2.1 + r.2.2) := by
  rw [entryAction] at h
  split_ifs at h with h1 h2 h3
  · obtain ⟨hb1, _, hb2, _⟩ := h1
    cases h
    dsimp only
    refine ⟨Nat.le_add_right _ _, Nat.le_add_right _ _, Or.inr hb1, Or.inr hb2, ?_⟩
    intro hbt _
    have : 0 < (tokenize e.1).length := List.length_pos.mpr hbt
    omega
  · obtain ⟨hb2, _, _⟩ := h2
    cases h
    dsimp only
    refine ⟨le_rfl, Nat.le_add_right _ _, Or.inl rfl, Or.inr hb2, ?_⟩
    intro _ hat
    have : 0 < (tokenize e.2).length := List.length_pos.mpr hat
    omega
  · obtain ⟨hb1, _, _⟩ := h3
    cases h
    dsimp only
    refine ⟨Nat.le_add_right _ _, le_rfl, Or.inr hb1, Or.inl rfl, ?_⟩
    intro hbt _
    have : 0 < (tokenize e.1).length := List.length_pos.mpr hbt
    omega

theorem jsGetN_eq_some {l : List String} {i : Nat} {t : String}
    (h : jsGetN l i = some t) : i < l.length := by
  rw [jsGetN] at h
  exact List.get?_eq_some.mp h |>.1

theorem jsGetN_eq_none {l : List String} {i : Nat}
    (h : jsGetN l i = none) : l.length ≤ i := by
  rw [jsGetN] at h
  exact List.get?_eq_none.mp h

/-- Termination of the reconciler walk when every change entry tokenizes to
nonempty lists on both sides: every loop iteration strictly increases the
cursor sum while keeping both cursors in range, so the exact budget of
`ewpLoop` is never exhausted. -/
theorem ewpLoop_isSome (ot ct : List String) (changes : List (String × String))
    (hch : ∀ e ∈ changes, tokenize e.1 ≠ [] ∧ tokenize e.2 ≠ []) :
    ∀ (fuel oi ci : Nat) (acc : List Op), oi ≤ ot.length → ci ≤ ct.length →
      (ot.length - oi) + (ct.length - ci) ≤ fuel →
      (ewpLoop ot ct changes fuel oi ci acc).isSome := by
  intro fuel
  induction fuel with
  | zero =>
    intro oi ci acc hoi hci hm
    rw [ewpLoop, if_neg (by omega)]
    rfl
  | succ fuel ih =>
    intro oi ci acc hoi hci hm
    rw [ewpLoop]
    by_cases hguard : ci < ct.length ∨ oi < ot.length
    · rw [if_pos hguard]
      cases hfind : changes.findSome? (entryAction ot ct oi ci) with
      | some r =>
        dsimp only
        obtain ⟨e, he, hact⟩ := List.exists_of_findSome?_eq_some hfind
        obtain ⟨hle1, hle2, hb1, hb2, hprog⟩ := entryAction_spec hact
        obtain ⟨hne1, hne2⟩ := hch e he
        have hlt := hprog hne1 hne2
        refine ih r.2.1 r.2.2 (acc ++ r.1) ?_ ?_ ?_
        · rcases hb1 with h | h
          · omega
          · exact h
        · rcases hb2 with h | h
          · omega
          · exact h
        · rcases hb1 with hb1 | hb1 <;> rcases hb2 with hb2 | hb2 <;> omega
      | none =>
        dsimp only
        cases hot : jsGetN ot oi with
        | some t =>
          cases hct : jsGetN ct ci with
          | some u =>
            dsimp only
            have h1 := jsGetN_eq_some hot
            have h2 := jsGetN_eq_some hct
            by_cases htu : t = u
            · rw [if_pos htu]
              exact ih _ _ _ (by omega) (by omega) (by omega)
            · rw [if_neg htu]
              exact ih _ _ _ (by omega) (by omega) (by omega)
          | none =>
            dsimp only
            have h2 := jsGetN_eq_none hct
            exact ih _ _ _ (by omega) (by omega) (by omega)
        | none =>
          have h1 := jsGetN_eq_none hot
          cases hct : jsGetN ct ci with
          | some u =>
            dsimp only
            have h2 := jsGetN_eq_some hct
            exact ih _ _ _ (by omega) (by omega) (by omega)
          | none =>
            have h2 := jsGetN_eq_none hct
            omega
    · rw [if_neg hguard]
      exact Option.isSome_some

/-- **C7, amended**: for every pair of input strings and every patch list
in which each non-no-op patch has a nonempty trimmed `before` and a
nonempty trimmed `after`, the reconciler terminates and produces an
operation sequence. -/
theorem C7_termination (original corrected : String) (ps : List Patch)
    (h : ∀ p ∈ ps, trimJS p.before ≠ trimJS p.after →
      (trimJS p.before ≠ "" ∧ trimJS p.after ≠ "")) :
    (computePatchAwareDiff original corrected ps).isSome := by
  rw [computePatchAwareDiff]
  by_cases hlen : ps.length = 0
  · rw [if_pos hlen]; exact Option.isSome_some
  · rw [if_neg hlen]
    rw [enhanceWithPatches]
    apply ewpLoop_isSome
    · intro e he
      obtain ⟨p, hp, hep, hne⟩ := mem_nonNoOps (mem_buildChanges he)
      obtain ⟨hb, ha⟩ := h p hp hne
      subst hep
      exact ⟨tokenize_ne_nil hb, tokenize_ne_nil ha⟩
    · exact Nat.zero_le _
    · exact Nat.zero_le _
    · omega

/-- Witness for `C7_termination` at a concrete input. -/
theorem C7_termination_witness :
    (computePatchAwareDiff "a" "b" [⟨"p", "q"⟩]).isSome :=
  C7_termination "a" "b" [⟨"p", "q"⟩] (by decide)

-- ### Round-trip of the reconciler walk (towards C2)

theorem join_append (l₁ l₂ : List String) :
    String.join (l₁ ++ l₂) = String.join l₁ ++ String.join l₂ := by
  induction l₁ with
  | nil =>
    simp only [List.nil_append, join_nil]
    apply String.ext
    simp [String.data_append]
  | cons s t ih =>
    rw [List.cons_append, join_cons, join_cons, ih, String.append_assoc]

theorem origTexts_append (l₁ l₂ : List Op) :
    origTexts (l₁ ++ l₂) = origTexts l₁ ++ origTexts l₂ := by
  simp [origTexts, List.filter_append]

theorem corrTexts_append (l₁ l₂ : List Op) :
    corrTexts (l₁ ++ l₂) = corrTexts l₁ ++ corrTexts l₂ := by
  simp [corrTexts, List.filter_append]

theorem origTexts_deletes (l : List String) :
    origTexts (l.map Op.delete) = l := by
  induction l with
  | nil => rfl
  | cons t r ih => simp only [List.map_cons, origTexts, List.filter_cons] at *; simp_all [Op.isOrigSide, Op.text]

theorem origTexts_inserts (l : List String) :
    origTexts (l.map Op.insert) = [] := by
  induction l with
  | nil => rfl
  | cons t r ih => simp only [List.map_cons, origTexts, List.filter_cons] at *; simp_all [Op.isOrigSide]

theorem corrTexts_inserts (l : List String) :
    corrTexts (l.map Op.insert) = l := by
  induction l with
  | nil => rfl
  | cons t r ih => simp only [List.map_cons, corrTexts, List.filter_cons] at *; simp_all [Op.isCorrSide, Op.text]

theorem corrTexts_deletes (l : List String) :
    corrTexts (l.map Op.delete) = [] := by
  induction l with
  | nil => rfl
  | cons t r ih => simp only [List.map_cons, corrTexts, List.filter_cons] at *; simp_all [Op.isCorrSide]

theorem drop_of_get? {l : List String} {i : Nat} {t : String}
    (h : l.get? i = some t) : l.drop i = t :: l.drop (i + 1) := by
  induction l generalizing i with
  | nil => simp at h
  | cons x r ih =>
    cases i with
    | zero => simp at h; simp [h]
    | succ j =>
      simp only [List.get?_cons_succ] at h
      simpa using ih h

theorem drop_slice_split (l : List String) (i n : Nat) :
    l.drop i = sliceJS l i n ++ l.drop (i + n) := by
  rw [sliceJS]
  have h1 : l.drop (i + n) = (l.drop i).drop n := by
    rw [List.drop_drop, Nat.add_comm]
  rw [h1, List.take_append_drop]

/-- What a successful `entryAction` contributes to the two round-trip
joins: the emitted original-side text is exactly the join of the consumed
original slice, and similarly on the corrected side. -/
theorem entryAction_joins {ot ct : List String} {oi ci : Nat}
    {e : String × String} {r : List Op × Nat × Nat}
    (h : entryAction ot ct oi ci e = some r) :
    String.join (origTexts r.1) ++ String.join (ot.drop r.2.1) =
      String.join (ot.drop oi) ∧
    String.join (corrTexts r.1) ++ String.join (ct.drop r.2.2) =
      String.join (ct.drop ci) := by
  rw [entryAction] at h
  split_ifs at h with h1 h2 h3
  · obtain ⟨hb1, hj1, hb2, hj2⟩ := h1
    cases h
    dsimp only
    constructor
    · rw [origTexts_append, origTexts_deletes, origTexts_inserts,
        List.append_nil, drop_slice_split ot oi (tokenize e.1).length,
        join_append, hj1]
    · rw [corrTexts_append, corrTexts_deletes, corrTexts_inserts,
        List.nil_append, drop_slice_split ct ci (tokenize e.2).length,
        join_append, hj2]
  · obtain ⟨hb2, hj2, _⟩ := h2
    cases h
    dsimp only
    constructor
    · rw [origTexts_inserts, join_nil]
      apply String.ext; simp [String.data_append]
    · rw [corrTexts_inserts, drop_slice_split ct ci (tokenize e.2).length,
        join_append, hj2]
  · obtain ⟨hb1, hj1, _⟩ := h3
    cases h
    dsimp only
    constructor
    · rw [origTexts_deletes, drop_slice_split ot oi (tokenize e.1).length,
        join_append, hj1]
    · rw [corrTexts_deletes, join_nil]
      apply String.ext; simp [String.data_append]

/-- Round-trip invariant of the reconciler walk: whatever the loop returns
extends the accumulator by exactly the joins of the unconsumed suffixes. -/
theorem ewpLoop_roundtrip (ot ct : List String)
    (changes : List (String × String)) :
    ∀ (fuel oi ci : Nat) (acc ops : List Op),
      ewpLoop ot ct changes fuel oi ci acc = some ops →
      String.join (origTexts ops) =
        String.join (origTexts acc) ++ String.join (ot.drop oi) ∧
      String.join (corrTexts ops) =
        String.join (corrTexts acc) ++ String.join (ct.drop ci) := by
  intro fuel
  induction fuel with
  | zero =>
    intro oi ci acc ops h
    rw [ewpLoop] at h
    split_ifs at h with hg
    cases h
    push_neg at hg
    rw [List.drop_eq_nil_of_le hg.1, List.drop_eq_nil_of_le hg.2, join_nil]
    constructor <;> (apply String.ext; simp [String.data_append])
  | succ fuel ih =>
    intro oi ci acc ops h
    rw [ewpLoop] at h
    split_ifs at h with hg
    · cases hfind : changes.findSome? (entryAction ot ct oi ci) with
      | some r =>
        rw [hfind] at h
        dsimp only at h
        obtain ⟨e, _, hact⟩ := List.exists_of_findSome?_eq_some hfind
        obtain ⟨hjo, hjc⟩ := entryAction_joins hact
        obtain ⟨io, ic⟩ := ih _ _ _ _ h
        rw [io, ic, origTexts_append, corrTexts_append, join_append, join_append]
        constructor
        · rw [String.append_assoc, hjo]
        · rw [String.append_assoc, hjc]
      | none =>
        rw [hfind] at h
        dsimp only at h
        cases hot : jsGetN ot oi with
        | some t =>
          cases hct : jsGetN ct ci with
          | some u =>
            rw [hot, hct] at h
            dsimp only at h
            have hdo : ot.drop oi = t :: ot.drop (oi + 1) := drop_of_get? hot
            have hdc : ct.drop ci = u :: ct.drop (ci + 1) := drop_of_get? hct
            by_cases htu : t = u
            · rw [if_pos htu] at h
              obtain ⟨io, ic⟩ := ih _ _ _ _ h
              rw [io, ic, origTexts_append, corrTexts_append, join_append,
                join_append, hdo, hdc, join_cons, join_cons]
              subst htu
              constructor <;>
                simp [origTexts, corrTexts, Op.isOrigSide, Op.isCorrSide,
                  Op.text, join_cons, join_nil, String.append_assoc]
            · rw [if_neg htu] at h
              obtain ⟨io, ic⟩ := ih _ _ _ _ h
              rw [io, ic, origTexts_append, corrTexts_append, join_append,
                join_append, hdo, hdc, join_cons, join_cons]
              constructor <;>
                simp [origTexts, corrTexts, Op.isOrigSide, Op.isCorrSide,
                  Op.text, join_cons, join_nil, String.append_assoc]
          | none =>
            rw [hot, hct] at h
            dsimp only at h
            have hdo : ot.drop oi = t :: ot.drop (oi + 1) := drop_of_get? hot
            have hdc : ct.drop ci = [] :=
              List.drop_eq_nil_of_le (jsGetN_eq_none hct)
            obtain ⟨io, ic⟩ := ih _ _ _ _ h
            rw [io, ic, origTexts_append, corrTexts_append, join_append,
              join_append, hdo, join_cons, hdc]
            constructor <;>
              simp [origTexts, corrTexts, Op.isOrigSide, Op.isCorrSide,
                Op.text, join_cons, join_nil, String.append_assoc]
        | none =>
          cases hct : jsGetN ct ci with
          | some u =>
            rw [hot, hct] at h
            dsimp only at h
            have hdo : ot.drop oi = [] :=
              List.drop_eq_nil_of_le (jsGetN_eq_none hot)
            have hdc : ct.drop ci = u :: ct.drop (ci + 1) := drop_of_get? hct
            obtain ⟨io, ic⟩ := ih _ _ _ _ h
            rw [io, ic, origTexts_append, corrTexts_append, join_append,
              join_append, hdc, join_cons, hdo]
            constructor <;>
              simp [origTexts, corrTexts, Op.isOrigSide, Op.isCorrSide,
                Op.text, join_cons, join_nil, String.append_assoc]
          | none =>
            rw [hot, hct] at h
            dsimp only at h
            exact absurd h Option.noConfusion
    · cases h
      push_neg at hg
      rw [List.drop_eq_nil_of_le hg.1, List.drop_eq_nil_of_le hg.2, join_nil]
      constructor <;> (apply String.ext; simp [String.data_append])

/-- Round-trip of `enhanceWithPatches` on every terminating run. -/
theorem enhanceWithPatches_roundtrip {original corrected : String}
    {changes : List (String × String)} {ops : List Op}
    (h : enhanceWithPatches original corrected changes = some ops) :
    String.join (origTexts ops) = original ∧
    String.join (corrTexts ops) = corrected := by
  rw [enhanceWithPatches] at h
  obtain ⟨io, ic⟩ := ewpLoop_roundtrip _ _ _ _ 0 0 [] ops h
  simp only [List.drop_zero] at io ic
  obtain ⟨hjo, _⟩ := tokenize_lossless original
  obtain ⟨hjc, _⟩ := tokenize_lossless corrected
  constructor
  · rw [io, hjo]
    apply String.ext; simp [String.data_append, origTexts, join_nil]
  · rw [ic, hjc]
    apply String.ext; simp [String.data_append, corrTexts, join_nil]

-- ### The edit graph: real and extended walks

/-- A path in the edit graph of token sequences `a`, `b` from `(x, y)` to
`(x', y')` using exactly `d` non-diagonal (delete/insert) moves: `diag`
consumes one matching token pair for free, `del` consumes `a[x]`, `ins`
consumes `b[y]`.  An edit script corresponds to such a walk from `(0,0)` to
`(|a|, |b|)` with `d` its number of non-Equal operations. -/
inductive Walk (a b : List String) : Nat → Nat → Nat → Nat → Nat → Prop
  | refl (x y : Nat) : Walk a b 0 x y x y
  | diag {d x y x' y'} : x < a.length → y < b.length → a.get? x = b.get? y →
      Walk a b d (x + 1) (y + 1) x' y' → Walk a b d x y x' y'
  | del {d x y x' y'} : x < a.length → Walk a b d (x + 1) y x' y' →
      Walk a b (d + 1) x y x' y'
  | ins {d x y x' y'} : y < b.length → Walk a b d x (y + 1) x' y' →
      Walk a b (d + 1) x y x' y'

/-- The walk relation the forward pass of `myersDiff` actually explores:
delete and insert moves are *not* bounded by the ends of the sequences
(the stored `v` values can overshoot `N`), only diagonal moves require a
real token match.  Coordinates are integers but stay nonnegative.  Built
up move-by-move from `(0, 0)`, matching how `v` values are extended. -/
inductive EWalk (a b : List String) : Nat → Int → Int → Prop
  | nil : EWalk a b 0 0 0
  | diag {d x y} : EWalk a b d x y → x < (a.length : Int) → y < (b.length : Int) →
      jsGetS a x = jsGetS b y → EWalk a b d (x + 1) (y + 1)
  | del {d x y} : EWalk a b d x y → EWalk a b (d + 1) (x + 1) y
  | ins {d x y} : EWalk a b d x y → EWalk a b (d + 1) x (y + 1)

theorem EWalk.nonneg {a b : List String} {d : Nat} {x y : Int}
    (h : EWalk a b d x y) : 0 ≤ x ∧ 0 ≤ y := by
  induction h with
  | nil => exact ⟨le_rfl, le_rfl⟩
  | diag _ _ _ _ ih => omega
  | del _ ih => omega
  | ins _ ih => omega

theorem Walk.trans {a b : List String} {d₁ d₂ x y x' y' x'' y'' : Nat}
    (h₁ : Walk a b d₁ x y x' y') (h₂ : Walk a b d₂ x' y' x'' y'') :
    Walk a b (d₁ + d₂) x y x'' y'' := by
  induction h₁ with
  | refl => simpa using h₂
  | diag hx hy hm _ ih => exact Walk.diag hx hy hm (ih h₂)
  | del hx _ ih =>
    have := ih h₂
    have hgoal : Walk a b (_ + d₂ + 1) _ _ x'' y'' := Walk.del hx this
    simpa [Nat.add_right_comm] using hgoal
  | ins hy _ ih =>
    have := ih h₂
    have hgoal : Walk a b (_ + d₂ + 1) _ _ x'' y'' := Walk.ins hy this
    simpa [Nat.add_right_comm] using hgoal

theorem Walk.diag_bound {a b : List String} {d x y x' y' : Nat}
    (h : Walk a b d x y x' y') :
    ((x' : Int) - y') - ((x : Int) - y) ≤ d ∧
    ((x : Int) - y) - ((x' : Int) - y') ≤ d := by
  induction h with
  | refl => omega
  | diag _ _ _ _ ih => omega
  | del _ _ ih => omega
  | ins _ _ ih => omega

theorem Walk.parity {a b : List String} {d x y x' y' : Nat}
    (h : Walk a b d x y x' y') :
    2 ∣ ((x' : Int) + y' + d - x - y) := by
  induction h with
  | refl => omega
  | diag _ _ _ _ ih => omega
  | del _ _ ih => omega
  | ins _ _ ih => omega

/-- Endpoint bounds of a real walk. -/
theorem Walk.end_le {a b : List String} {d x y x' y' : Nat}
    (h : Walk a b d x y x' y') :
    x ≤ x' ∧ y ≤ y' ∧ (x' ≤ a.length ∨ x' = x) ∧ (y' ≤ b.length ∨ y' = y) := by
  induction h with
  | refl => exact ⟨le_rfl, le_rfl, Or.inr rfl, Or.inr rfl⟩
  | diag hx hy _ _ ih => omega
  | del hx _ ih => omega
  | ins hy _ ih => omega

theorem origTexts_cons_equal (t : String) (l : List Op) :
    origTexts (Op.equal t :: l) = t :: origTexts l := by
  simp [origTexts, List.filter_cons, Op.isOrigSide, Op.text]

theorem origTexts_cons_delete (t : String) (l : List Op) :
    origTexts (Op.delete t :: l) = t :: origTexts l := by
  simp [origTexts, List.filter_cons, Op.isOrigSide, Op.text]

theorem origTexts_cons_insert (t : String) (l : List Op) :
    origTexts (Op.insert t :: l) = origTexts l := by
  simp [origTexts, List.filter_cons, Op.isOrigSide]

theorem corrTexts_cons_equal (t : String) (l : List Op) :
    corrTexts (Op.equal t :: l) = t :: corrTexts l := by
  simp [corrTexts, List.filter_cons, Op.isCorrSide, Op.text]

theorem corrTexts_cons_insert (t : String) (l : List Op) :
    corrTexts (Op.insert t :: l) = t :: corrTexts l := by
  simp [corrTexts, List.filter_cons, Op.isCorrSide, Op.text]

theorem corrTexts_cons_delete (t : String) (l : List Op) :
    corrTexts (Op.delete t :: l) = corrTexts l := by
  simp [corrTexts, List.filter_cons, Op.isCorrSide]

theorem nonEqCount_cons_equal (t : String) (l : List Op) :
    nonEqCount (Op.equal t :: l) = nonEqCount l := by
  simp [nonEqCount, List.filter_cons, Op.isNonEqual]

theorem nonEqCount_cons_insert (t : String) (l : List Op) :
    nonEqCount (Op.insert t :: l) = nonEqCount l + 1 := by
  simp [nonEqCount, List.filter_cons, Op.isNonEqual]

theorem nonEqCount_cons_delete (t : String) (l : List Op) :
    nonEqCount (Op.delete t :: l) = nonEqCount l + 1 := by
  simp [nonEqCount, List.filter_cons, Op.isNonEqual]

theorem drop_cons_inv {l : List String} {x : Nat} {t : String} {tail : List String}
    (h : l.drop x = t :: tail) :
    l.get? x = some t ∧ l.drop (x + 1) = tail ∧ x < l.length := by
  have hx : x < l.length := by
    by_contra hc
    rw [List.drop_eq_nil_of_le (Nat.le_of_not_lt hc)] at h
    exact List.noConfusion h
  have hget : l.get? x = some t := by
    have := List.get?_drop l x 0
    rw [h] at this
    simpa using this.symm
  have hdrop : l.drop (x + 1) = tail := by
    have h1 : l.drop (x + 1) = (l.drop x).drop 1 := by
      rw [List.drop_drop, Nat.add_comm]
    rw [h1, h]
    rfl
  exact ⟨hget, hdrop, hx⟩

/-- Any valid edit script (an operation list whose two projections are the
suffixes of `a` and `b`) induces a real walk with cost its non-Equal
count. -/
theorem script_walk (a b : List String) :
    ∀ (ops : List Op) (x y : Nat),
      origTexts ops = a.drop x → corrTexts ops = b.drop y →
      x ≤ a.length → y ≤ b.length →
      Walk a b (nonEqCount ops) x y a.length b.length := by
  intro ops
  induction ops with
  | nil =>
    intro x y ho hc hx hy
    simp only [origTexts, corrTexts, List.filter_nil, List.map_nil] at ho hc
    have hxe : x = a.length :=
      le_antisymm hx (List.drop_eq_nil_iff_le.mp ho.symm)
    have hye : y = b.length :=
      le_antisymm hy (List.drop_eq_nil_iff_le.mp hc.symm)
    subst hxe; subst hye
    exact Walk.refl _ _
  | cons op rest ih =>
    intro x y ho hc hx hy
    cases op with
    | equal t =>
      rw [origTexts_cons_equal] at ho
      rw [corrTexts_cons_equal] at hc
      obtain ⟨hga, hda, hxa⟩ := drop_cons_inv ho.symm
      obtain ⟨hgb, hdb, hyb⟩ := drop_cons_inv hc.symm
      rw [nonEqCount_cons_equal]
      exact Walk.diag hxa hyb (by rw [hga, hgb])
        (ih (x + 1) (y + 1) hda.symm hdb.symm hxa hyb)
    | delete t =>
      rw [origTexts_cons_delete] at ho
      rw [corrTexts_cons_delete] at hc
      obtain ⟨hga, hda, hxa⟩ := drop_cons_inv ho.symm
      rw [nonEqCount_cons_delete]
      exact Walk.del hxa (ih (x + 1) y hda.symm hc hxa hy)
    | insert t =>
      rw [origTexts_cons_insert] at ho
      rw [corrTexts_cons_insert] at hc
      obtain ⟨hgb, hdb, hyb⟩ := drop_cons_inv hc.symm
      rw [nonEqCount_cons_insert]
      exact Walk.ins hyb (ih x (y + 1) ho hdb.symm hx hyb)

theorem walk_right (a b : List String) :
    ∀ (n x y : Nat), x + n ≤ a.length → Walk a b n x y (x + n) y := by
  intro n
  induction n with
  | zero => intro x y _; exact Walk.refl _ _
  | succ n ih =>
    intro x y h
    have hx : x < a.length := by omega
    have := Walk.del hx (ih (x + 1) y (by omega))
    have harith : x + 1 + n = x + (n + 1) := by omega
    rwa [harith] at this

theorem walk_down (a b : List String) :
    ∀ (n x y : Nat), y + n ≤ b.length → Walk a b n x y x (y + n) := by
  intro n
  induction n with
  | zero => intro x y _; exact Walk.refl _ _
  | succ n ih =>
    intro x y h
    have hy : y < b.length := by omega
    have := Walk.ins hy (ih x (y + 1) (by omega))
    have harith : y + 1 + n = y + (n + 1) := by omega
    rwa [harith] at this

/-- The trivial full walk: delete everything, then insert everything. -/
theorem walk_full (a b : List String) :
    Walk a b (a.length + b.length) 0 0 a.length b.length := by
  have h1 : Walk a b a.length 0 0 a.length 0 := by
    simpa using walk_right a b a.length 0 0 (by omega)
  have h2 : Walk a b b.length a.length 0 a.length b.length := by
    simpa using walk_down a b b.length a.length 0 (by omega)
  exact Walk.trans h1 h2

/-- A zero-cost walk is a run of diagonal moves: its offsets agree and
every intermediate position is a real token match. -/
theorem walk_zero_spec {a b : List String} :
    ∀ {x y x' y' : Nat}, Walk a b 0 x y x' y' →
      x' + y = y' + x ∧ x ≤ x' ∧
      ∀ j, x + j < x' →
        x + j < a.length ∧ y + j < b.length ∧ a.get? (x + j) = b.get? (y + j) := by
  intro x y x' y' h
  generalize hd : 0 = d at h
  induction h with
  | refl => exact ⟨by omega, le_rfl, fun j hj => absurd hj (by omega)⟩
  | @diag dw xw yw xe ye hx hy hm w ih =>
    obtain ⟨hoff, hle, hmat⟩ := ih hd
    refine ⟨by omega, by omega, ?_⟩
    intro j hj
    cases j with
    | zero => exact ⟨by simpa using hx, by simpa using hy, by simpa using hm⟩
    | succ j' =>
      have hthis := hmat j' (by omega)
      refine ⟨by omega, by omega, ?_⟩
      have h1 : xw + 1 + j' = xw + (j' + 1) := by omega
      have h2 : yw + 1 + j' = yw + (j' + 1) := by omega
      rw [h1, h2] at hthis
      exact hthis.2.2
  | del _ _ _ => omega
  | ins _ _ _ => omega

/-- Decomposition of a positive-cost walk around its LAST costly move:
a walk of cost `d - 1`, then one delete or insert, then diagonals only. -/
theorem walk_decomp {a b : List String} :
    ∀ {d x y x' y' : Nat}, Walk a b d x y x' y' → 1 ≤ d →
      ∃ xm ym, (Walk a b (d - 1) x y xm ym ∧ xm < a.length ∧
          Walk a b 0 (xm + 1) ym x' y') ∨
        (Walk a b (d - 1) x y xm ym ∧ ym < b.length ∧
          Walk a b 0 xm (ym + 1) x' y') := by
  intro d x y x' y' h hd
  induction h with
  | refl => omega
  | diag hx hy hm w ih =>
    obtain ⟨xm, ym, hcase⟩ := ih hd
    rcases hcase with ⟨w1, hb, wt⟩ | ⟨w1, hb, wt⟩
    · exact ⟨xm, ym, Or.inl ⟨Walk.diag hx hy hm w1, hb, wt⟩⟩
    · exact ⟨xm, ym, Or.inr ⟨Walk.diag hx hy hm w1, hb, wt⟩⟩
  | @del dw xw yw x' y' hx w ih =>
    cases Nat.eq_zero_or_pos dw with
    | inl h0 =>
      subst h0
      exact ⟨xw, yw, Or.inl ⟨by simpa using Walk.refl xw yw, hx, w⟩⟩
    | inr hpos =>
      obtain ⟨xm, ym, hcase⟩ := ih hpos
      have harith : dw + 1 - 1 = (dw - 1) + 1 := by omega
      rcases hcase with ⟨w1, hb, wt⟩ | ⟨w1, hb, wt⟩
      · exact ⟨xm, ym, Or.inl ⟨by rw [harith]; exact Walk.del hx w1, hb, wt⟩⟩
      · exact ⟨xm, ym, Or.inr ⟨by rw [harith]; exact Walk.del hx w1, hb, wt⟩⟩
  | @ins dw xw yw x' y' hy w ih =>
    cases Nat.eq_zero_or_pos dw with
    | inl h0 =>
      subst h0
      exact ⟨xw, yw, Or.inr ⟨by simpa using Walk.refl xw yw, hy, w⟩⟩
    | inr hpos =>
      obtain ⟨xm, ym, hcase⟩ := ih hpos
      have harith : dw + 1 - 1 = (dw - 1) + 1 := by omega
      rcases hcase with ⟨w1, hb, wt⟩ | ⟨w1, hb, wt⟩
      · exact ⟨xm, ym, Or.inl ⟨by rw [harith]; exact Walk.ins hy w1, hb, wt⟩⟩
      · exact ⟨xm, ym, Or.inr ⟨by rw [harith]; exact Walk.ins hy w1, hb, wt⟩⟩

/-- Clipping an extended walk to the real grid: out-of-bounds delete and
insert moves are dropped, so an extended walk that ends at or beyond
`(N, M)` yields a real walk to `(N, M)` whose cost is smaller by at least
the total overshoot. -/
theorem ewalk_clip {a b : List String} :
    ∀ {d : Nat} {x y : Int}, EWalk a b d x y →
      ∃ (d' : Nat), (d' : Int) + max 0 (x - a.length) + max 0 (y - b.length) ≤ d ∧
        Walk a b d' 0 0 (min x (a.length : Int)).toNat (min y (b.length : Int)).toNat := by
  intro d x y h
  induction h with
  | nil => exact ⟨0, by simp, by simpa using Walk.refl 0 0⟩
  | @diag dw xw yw hw hx hy hm ih =>
    obtain ⟨hx0, hy0⟩ := hw.nonneg
    obtain ⟨d', hdle, hwalk⟩ := ih
    have hminx : min xw (a.length : Int) = xw := by omega
    have hminy : min yw (b.length : Int) = yw := by omega
    rw [hminx, hminy] at hwalk
    have hxa : xw.toNat < a.length := by omega
    have hyb : yw.toNat < b.length := by omega
    have hget : a.get? xw.toNat = b.get? yw.toNat := by
      rw [jsGetS, jsGetS, if_neg (by omega), if_neg (by omega)] at hm
      exact hm
    have hstep := Walk.diag hxa hyb hget (Walk.refl (xw.toNat + 1) (yw.toNat + 1))
    have htr := Walk.trans hwalk hstep
    refine ⟨d', by omega, ?_⟩
    have e1 : min (xw + 1) (a.length : Int) = xw + 1 := by omega
    have e2 : min (yw + 1) (b.length : Int) = yw + 1 := by omega
    rw [e1, e2]
    have e3 : (xw + 1).toNat = xw.toNat + 1 := by omega
    have e4 : (yw + 1).toNat = yw.toNat + 1 := by omega
    rw [e3, e4]
    simpa using htr
  | @del dw xw yw hw ih =>
    obtain ⟨hx0, hy0⟩ := hw.nonneg
    obtain ⟨d', hdle, hwalk⟩ := ih
    by_cases hxb : xw < (a.length : Int)
    · have e1 : min xw (a.length : Int) = xw := by omega
      have e2 : min (xw + 1) (a.length : Int) = xw + 1 := by omega
      rw [e1] at hwalk
      have hxa : xw.toNat < a.length := by omega
      have hstep : Walk a b 1 xw.toNat ((min yw (b.length : Int)).toNat)
          (xw.toNat + 1) ((min yw (b.length : Int)).toNat) :=
        Walk.del hxa (Walk.refl _ _)
      have htr := Walk.trans hwalk hstep
      refine ⟨d' + 1, by omega, ?_⟩
      rw [e2]
      have e3 : (xw + 1).toNat = xw.toNat + 1 := by omega
      rw [e3]
      exact htr
    · have e1 : min (xw + 1) (a.length : Int) = (a.length : Int) := by omega
      have e2 : min xw (a.length : Int) = (a.length : Int) := by omega
      rw [e2] at hwalk
      refine ⟨d', by omega, ?_⟩
      rw [e1]
      exact hwalk
  | @ins dw xw yw hw ih =>
    obtain ⟨hx0, hy0⟩ := hw.nonneg
    obtain ⟨d', hdle, hwalk⟩ := ih
    by_cases hyb : yw < (b.length : Int)
    · have e1 : min yw (b.length : Int) = yw := by omega
      have e2 : min (yw + 1) (b.length : Int) = yw + 1 := by omega
      rw [e1] at hwalk
      have hya : yw.toNat < b.length := by omega
      have hstep : Walk a b 1 ((min xw (a.length : Int)).toNat) yw.toNat
          ((min xw (a.length : Int)).toNat) (yw.toNat + 1) :=
        Walk.ins hya (Walk.refl _ _)
      have htr := Walk.trans hwalk hstep
      refine ⟨d' + 1, by omega, ?_⟩
      rw [e2]
      have e3 : (yw + 1).toNat = yw.toNat + 1 := by omega
      rw [e3]
      exact htr
    · have e1 : min (yw + 1) (b.length : Int) = (b.length : Int) := by omega
      have e2 : min yw (b.length : Int) = (b.length : Int) := by omega
      rw [e2] at hwalk
      refine ⟨d', by omega, ?_⟩
      rw [e1]
      exact hwalk

-- ### The forward pass as iterated round maps

/-- The value `myersDiff` stores in `v[k]` when processing diagonal `k` at
depth `D` with current map `v`: the snake endpoint from the chosen start. -/
def storedVal (a b : List String) (v : VMap) (D : Nat) (k : Int) : Int :=
  (snakeGo a b (a.length : Int) (b.length : Int)
    ((a.length : Int) - startX v D k).toNat (startX v D k) (startX v D k - k)).1

/-- The early-return test `x >= N && y >= M` for diagonal `k` at depth `D`. -/
def trigAt (a b : List String) (v : VMap) (D : Nat) (k : Int) : Prop :=
  (a.length : Int) ≤ storedVal a b v D k ∧
  (b.length : Int) ≤ storedVal a b v D k - k

/-- The map after processing the diagonals `done` of round `D` (reads are
taken from the round-entry map `v`; keys of the same parity as `D` never
influence each other's reads, proved below). -/
def partialMap (a b : List String) (v : VMap) (D : Nat) (done : List Int) : VMap :=
  fun j => if j ∈ done then some (storedVal a b v D j) else v j

/-- The `v` map at the START of round `D` (`trace[D]` in the JS): `vInit`
for round 0, then each full round overwrites its diagonals. -/
def Wmap (a b : List String) : Nat → VMap
  | 0 => vInit
  | D + 1 => partialMap a b (Wmap a b D) D (ksList D)

/-- Round `D` hits the early return at one of its diagonals. -/
def trigRound (a b : List String) (D : Nat) : Prop :=
  ∃ k ∈ ksList D, trigAt a b (Wmap a b D) D k

instance (a b : List String) (v : VMap) (D : Nat) (k : Int) :
    Decidable (trigAt a b v D k) := by
  unfold trigAt; infer_instance

instance (a b : List String) (D : Nat) : Decidable (trigRound a b D) := by
  unfold trigRound; infer_instance

theorem mem_ksList {D : Nat} {k : Int} :
    k ∈ ksList D ↔ -(D : Int) ≤ k ∧ k ≤ D ∧ 2 ∣ (k + D) := by
  rw [ksList]
  constructor
  · intro h
    obtain ⟨i, hi, hk⟩ := List.mem_map.mp h
    rw [List.mem_range] at hi
    exact ⟨by omega, by omega, ⟨(i : Int), by omega⟩⟩
  · rintro ⟨h1, h2, m, hm⟩
    exact List.mem_map.mpr ⟨m.toNat, List.mem_range.mpr (by omega), by omega⟩

theorem partialMap_opp_parity {a b : List String} {v : VMap} {D : Nat}
    {done : List Int} {j : Int} (hdone : ∀ i ∈ done, i ∈ ksList D)
    (hj : ¬ (2 ∣ (j + D))) :
    partialMap a b v D done j = v j := by
  rw [partialMap, if_neg]
  intro hmem
  exact hj (mem_ksList.mp (hdone j hmem)).2.2

/-- Reading the two neighbour diagonals during a round is unaffected by the
values already stored this round (they live on the opposite parity). -/
theorem reads_eq_of_mem {a b : List String} {v : VMap} {D : Nat}
    {done : List Int} {k : Int} (hdone : ∀ i ∈ done, i ∈ ksList D)
    (hk : k ∈ ksList D) :
    partialMap a b v D done (k - 1) = v (k - 1) ∧
    partialMap a b v D done (k + 1) = v (k + 1) := by
  obtain ⟨_, _, hpar⟩ := mem_ksList.mp hk
  constructor
  · exact partialMap_opp_parity hdone (by omega)
  · exact partialMap_opp_parity hdone (by omega)

theorem chooseIns_partial {a b : List String} {v : VMap} {D : Nat}
    {done : List Int} {k : Int} (hdone : ∀ i ∈ done, i ∈ ksList D)
    (hk : k ∈ ksList D) :
    chooseIns (partialMap a b v D done) D k = chooseIns v D k := by
  obtain ⟨h1, h2⟩ := reads_eq_of_mem (a := a) (b := b) (v := v) hdone hk
  rw [chooseIns, chooseIns, h1, h2]

theorem startX_partial {a b : List String} {v : VMap} {D : Nat}
    {done : List Int} {k : Int} (hdone : ∀ i ∈ done, i ∈ ksList D)
    (hk : k ∈ ksList D) :
    startX (partialMap a b v D done) D k = startX v D k := by
  obtain ⟨h1, h2⟩ := reads_eq_of_mem (a := a) (b := b) (v := v) hdone hk
  rw [startX, startX, chooseIns_partial hdone hk, h1, h2]

theorem storedVal_partial {a b : List String} {v : VMap} {D : Nat}
    {done : List Int} {k : Int} (hdone : ∀ i ∈ done, i ∈ ksList D)
    (hk : k ∈ ksList D) :
    storedVal a b (partialMap a b v D done) D k = storedVal a b v D k := by
  rw [storedVal, storedVal, startX_partial hdone hk]

theorem vSet_partialMap {a b : List String} {v : VMap} {D : Nat}
    {done : List Int} {k : Int} :
    vSet (partialMap a b v D done) k (storedVal a b v D k) =
      partialMap a b v D (done ++ [k]) := by
  funext j
  rw [vSet, partialMap, partialMap]
  by_cases hj : j = k
  · subst hj
    rw [if_pos rfl, if_pos (by simp)]
  · rw [if_neg hj]
    by_cases hmem : j ∈ done
    · rw [if_pos hmem, if_pos (by simp [hmem])]
    · rw [if_neg hmem, if_neg (by simp [hmem, hj])]

-- ### Properties of the snake

theorem snakeGo_sub (a b : List String) (N M : Int) :
    ∀ (fuel : Nat) (x y : Int),
      (snakeGo a b N M fuel x y).1 - (snakeGo a b N M fuel x y).2 = x - y := by
  intro fuel
  induction fuel with
  | zero => intro x y; rfl
  | succ f ih =>
    intro x y
    rw [snakeGo]
    by_cases h : x < N ∧ y < M ∧ jsGetS a x = jsGetS b y
    · rw [if_pos h]
      have := ih (x + 1) (y + 1)
      omega
    · rw [if_neg h]

theorem snakeGo_ge (a b : List String) (N M : Int) :
    ∀ (fuel : Nat) (x y : Int), x ≤ (snakeGo a b N M fuel x y).1 := by
  intro fuel
  induction fuel with
  | zero => intro x y; exact le_rfl
  | succ f ih =>
    intro x y
    rw [snakeGo]
    by_cases h : x < N ∧ y < M ∧ jsGetS a x = jsGetS b y
    · rw [if_pos h]
      exact le_trans (by omega) (ih (x + 1) (y + 1))
    · rw [if_neg h]

/-- Every position the snake slides over is an in-bounds token match (on
the diagonal `x - y` of its start). -/
theorem snakeGo_matches (a b : List String) (N M : Int) :
    ∀ (fuel : Nat) (x y : Int) (i : Int),
      x ≤ i → i < (snakeGo a b N M fuel x y).1 →
      i < N ∧ i - (x - y) < M ∧ jsGetS a i = jsGetS b (i - (x - y)) := by
  intro fuel
  induction fuel with
  | zero =>
    intro x y i h1 h2
    rw [snakeGo] at h2
    omega
  | succ f ih =>
    intro x y i h1 h2
    rw [snakeGo] at h2
    by_cases h : x < N ∧ y < M ∧ jsGetS a x = jsGetS b y
    · rw [if_pos h] at h2
      by_cases hi : i = x
      · subst hi
        refine ⟨h.1, ?_, ?_⟩
        · have heq : i - (i - y) = y := by omega
          rw [heq]; exact h.2.1
        · have heq : i - (i - y) = y := by omega
          rw [heq]; exact h.2.2
      · have := ih (x + 1) (y + 1) i (by omega) h2
        refine ⟨this.1, ?_, ?_⟩
        · have harith : i - (x + 1 - (y + 1)) = i - (x - y) := by omega
          rw [harith] at this
          exact this.2.1
        · have harith : i - (x + 1 - (y + 1)) = i - (x - y) := by omega
          rw [harith] at this
          exact this.2.2
    · rw [if_neg h] at h2
      omega

/-- Slide lemma: if every position from the snake's start up to a target is
an in-bounds match on the start's diagonal, the snake reaches the target
(exact budget `(N - x).toNat`). -/
theorem snakeGo_reaches (a b : List String) (N M : Int) (xT : Int) :
    ∀ (fuel : Nat) (x y : Int), fuel = (N - x).toNat →
      (∀ i : Int, x ≤ i → i < xT →
        i < N ∧ i - (x - y) < M ∧ jsGetS a i = jsGetS b (i - (x - y))) →
      xT ≤ (snakeGo a b N M fuel x y).1 ∨ xT ≤ x := by
  intro fuel
  induction fuel with
  | zero =>
    intro x y hf hm
    by_cases hx : xT ≤ x
    · exact Or.inr hx
    · obtain ⟨h1, _, _⟩ := hm x le_rfl (by omega)
      omega
  | succ f ih =>
    intro x y hf hm
    by_cases hx : xT ≤ x
    · exact Or.inr hx
    · obtain ⟨h1, h2, h3⟩ := hm x le_rfl (by omega)
      have hsub : x - (x - y) = y := by omega
      rw [hsub] at h2 h3
      rw [snakeGo, if_pos ⟨h1, h2, h3⟩]
      have hrec := ih (x + 1) (y + 1) (by omega) ?_
      · rcases hrec with h | h
        · exact Or.inl h
        · left
          have := snakeGo_ge a b N M f (x + 1) (y + 1)
          omega
      · intro i hi1 hi2
        have := hm i (by omega) hi2
        have harith : i - (x + 1 - (y + 1)) = i - (x - y) := by omega
        rw [harith]
        exact this

theorem jsNum_some (x : Int) : jsNum (some x) = x := rfl

theorem partialMap_mem {a b : List String} {v : VMap} {D : Nat}
    {done : List Int} {k : Int} (h : k ∈ done) :
    partialMap a b v D done k = some (storedVal a b v D k) := by
  rw [partialMap, if_pos h]

theorem partialMap_not_mem {a b : List String} {v : VMap} {D : Nat}
    {done : List Int} {k : Int} (h : k ∉ done) :
    partialMap a b v D done k = v k := by
  rw [partialMap, if_neg h]

theorem chooseIns_iff {v : VMap} {D : Nat} {k : Int} :
    chooseIns v D k = true ↔
      k = -(D : Int) ∨ (k ≠ (D : Int) ∧ jsLt (v (k - 1)) (v (k + 1)) = true) := by
  simp [chooseIns]

theorem jsLt_eq_true {o₁ o₂ : Option Int} :
    jsLt o₁ o₂ = true ↔ ∃ x y, o₁ = some x ∧ o₂ = some y ∧ x < y := by
  cases o₁ <;> cases o₂ <;> simp [jsLt]

/-- The snake preserves extended-walk soundness: every slide is a real
diagonal move. -/
theorem snakeGo_ewalk (a b : List String) :
    ∀ (fuel : Nat) (x y : Int) (r : Nat), EWalk a b r x y →
      EWalk a b r (snakeGo a b (a.length : Int) (b.length : Int) fuel x y).1
        (snakeGo a b (a.length : Int) (b.length : Int) fuel x y).2 := by
  intro fuel
  induction fuel with
  | zero => intro x y r h; exact h
  | succ f ih =>
    intro x y r h
    rw [snakeGo]
    by_cases hc : x < (a.length : Int) ∧ y < (b.length : Int) ∧ jsGetS a x = jsGetS b y
    · rw [if_pos hc]
      exact ih (x + 1) (y + 1) r (EWalk.diag h hc.1 hc.2.1 hc.2.2)
    · rw [if_neg hc]
      exact h

/-- Definedness and soundness of the round maps: every key of absolute
value below the round index is set; every set value is nonnegative, lies on
its diagonal's nonnegative side, and is the endpoint of an extended walk of
cost below the round index (except the untouched initial `v[1] = 0`, which
survives only into rounds 0 and 1). -/
theorem Wmap_inv (a b : List String) :
    ∀ (D : Nat),
      ((Wmap a b D 1).isSome) ∧
      (∀ k : Int, 1 ≤ D → k.natAbs ≤ D - 1 → (Wmap a b D k).isSome) ∧
      (∀ k x, Wmap a b D k = some x →
        (k = 1 ∧ x = 0 ∧ D ≤ 1) ∨
        (0 ≤ x ∧ 0 ≤ x - k ∧ ∃ r, r < D ∧ EWalk a b r x (x - k))) := by
  intro D
  induction D with
  | zero =>
    refine ⟨by rw [Wmap]; rfl, fun k h1 _ => absurd h1 (by omega), ?_⟩
    intro k x h
    rw [Wmap, vInit] at h
    by_cases hk : k = 1
    · rw [if_pos hk] at h
      exact Or.inl ⟨hk, (Option.some_injective _ h).symm, by omega⟩
    · rw [if_neg hk] at h
      exact absurd h Option.noConfusion
  | succ D ih =>
    obtain ⟨ih1, ih2, ih3⟩ := ih
    have hksub : ∀ i ∈ ksList D, i ∈ ksList D := fun i h => h
    -- soundness of the chosen start for any diagonal of round D
    have startX_sound : ∀ k ∈ ksList D,
        0 ≤ startX (Wmap a b D) D k ∧ 0 ≤ startX (Wmap a b D) D k - k ∧
        ∃ r, r ≤ D ∧ EWalk a b r (startX (Wmap a b D) D k)
          (startX (Wmap a b D) D k - k) := by
      intro k hk
      obtain ⟨hkl, hkr, hkp⟩ := mem_ksList.mp hk
      by_cases hc : chooseIns (Wmap a b D) D k = true
      · rw [startX, if_pos hc]
        rcases chooseIns_iff.mp hc with hneg | ⟨hne, hlt⟩
        · -- k = -D, read v[k+1]
          have hsome : (Wmap a b D (k + 1)).isSome := by
            by_cases hD : D = 0
            · subst hD
              have : k = 0 := by omega
              subst this
              exact ih1
            · exact ih2 (k + 1) (by omega) (by omega)
          obtain ⟨x₁, hx₁⟩ := Option.isSome_iff_exists.mp hsome
          rw [hx₁]
          simp only [jsNum_some]
          rcases ih3 (k + 1) x₁ hx₁ with ⟨he1, he2, he3⟩ | ⟨hp1, hp2, r, hr, hw⟩
          · -- untouched init: only possible at round 0 with k = 0
            have hk0 : k = 0 := by omega
            have hD0 : D = 0 := by omega
            subst hk0
            rw [he2]
            exact ⟨le_rfl, by omega, 0, by omega, by simpa using EWalk.nil⟩
          · refine ⟨by omega, by omega, r + 1, by omega, ?_⟩
            have := EWalk.ins hw
            have harith : x₁ - (k + 1) + 1 = x₁ - k := by omega
            rwa [harith] at this
        · obtain ⟨w₁, w₂, hw₁, hw₂, hlt'⟩ := jsLt_eq_true.mp hlt
          rw [hw₂]
          simp only [jsNum_some]
          rcases ih3 (k + 1) w₂ hw₂ with ⟨he1, he2, he3⟩ | ⟨hp1, hp2, r, hr, hw⟩
          · -- untouched init at k+1 = 1 forces k = 0 and (by the parity of
            -- k + D and D ≤ 1) D = 0, contradicting k ≠ D
            exact absurd (by omega : k = (D : Int)) hne
          · refine ⟨by omega, by omega, r + 1, by omega, ?_⟩
            have := EWalk.ins hw
            have harith : w₂ - (k + 1) + 1 = w₂ - k := by omega
            rwa [harith] at this
      · rw [startX, if_neg (by simpa using hc)]
        have hcneg := hc
        rw [chooseIns_iff] at hcneg
        push_neg at hcneg
        obtain ⟨hne, _⟩ := hcneg
        have hD1 : 1 ≤ D := by
          rcases Nat.eq_zero_or_pos D with h0 | h
          · subst h0
            exact absurd (by omega : k = -(0 : Int)) hne
          · exact h
        have hk2 : -(D : Int) + 2 ≤ k := by omega
        have hsome : (Wmap a b D (k - 1)).isSome :=
          ih2 (k - 1) hD1 (by omega)
        obtain ⟨w₁, hw₁⟩ := Option.isSome_iff_exists.mp hsome
        rw [hw₁]
        simp only [jsNum_some]
        rcases ih3 (k - 1) w₁ hw₁ with ⟨he1, he2, he3⟩ | ⟨hp1, hp2, r, hr, hw⟩
        · omega
        · refine ⟨by omega, by omega, r + 1, by omega, ?_⟩
          have := EWalk.del hw
          have harith : w₁ - (k - 1) = w₁ + 1 - k := by omega
          rwa [harith] at this
    refine ⟨?_, ?_, ?_⟩
    · -- key 1 defined
      by_cases h1 : (1 : Int) ∈ ksList D
      · rw [Wmap, partialMap_mem h1]
        exact Option.isSome_some
      · rw [Wmap, partialMap_not_mem h1]
        exact ih1
    · -- all keys with |k| ≤ D defined
      intro k _ habs
      by_cases hmem : k ∈ ksList D
      · rw [Wmap, partialMap_mem hmem]
        exact Option.isSome_some
      · rw [Wmap, partialMap_not_mem hmem]
        have hnpar : ¬ (2 ∣ (k + D)) := by
          intro hpar
          exact hmem (mem_ksList.mpr ⟨by omega, by omega, hpar⟩)
        have hD1 : 1 ≤ D := by
          rcases Nat.eq_zero_or_pos D with h0 | h
          · subst h0
            have : k = 0 := by omega
            subst this
            exact absurd (⟨0, by omega⟩ : 2 ∣ ((0 : Int) + (0 : Nat))) hnpar
          · exact h
        have habs' : k.natAbs ≤ D - 1 := by
          have h1 : k ≠ (D : Int) := by
            intro h; subst h
            exact hnpar ⟨(D : Int), by omega⟩
          have h2 : k ≠ -(D : Int) := by
            intro h; subst h
            exact hnpar ⟨0, by omega⟩
          omega
        exact ih2 k hD1 habs'
    · -- value soundness
      intro k x h
      by_cases hmem : k ∈ ksList D
      · rw [Wmap, partialMap_mem hmem] at h
        have hx : x = storedVal a b (Wmap a b D) D k :=
          (Option.some_injective _ h).symm
        subst hx
        obtain ⟨hs1, hs2, r, hr, hw⟩ := startX_sound k hmem
        right
        have hsn := snakeGo_ewalk a b
          ((a.length : Int) - startX (Wmap a b D) D k).toNat
          (startX (Wmap a b D) D k) (startX (Wmap a b D) D k - k) r hw
        have hsub := snakeGo_sub a b (a.length : Int) (b.length : Int)
          ((a.length : Int) - startX (Wmap a b D) D k).toNat
          (startX (Wmap a b D) D k) (startX (Wmap a b D) D k - k)
        obtain ⟨hn1, hn2⟩ := hsn.nonneg
        rw [storedVal]
        refine ⟨hn1, by omega, r, by omega, ?_⟩
        have harith : (snakeGo a b (a.length : Int) (b.length : Int)
            ((a.length : Int) - startX (Wmap a b D) D k).toNat
            (startX (Wmap a b D) D k) (startX (Wmap a b D) D k - k)).2 =
            (snakeGo a b (a.length : Int) (b.length : Int)
            ((a.length : Int) - startX (Wmap a b D) D k).toNat
            (startX (Wmap a b D) D k) (startX (Wmap a b D) D k - k)).1 - k := by
          omega
        rwa [harith] at hsn
      · rw [Wmap, partialMap_not_mem hmem] at h
        rcases ih3 k x h with ⟨he1, he2, he3⟩ | ⟨hp1, hp2, r, hr, hw⟩
        · left
          refine ⟨he1, he2, ?_⟩
          by_cases hD : D = 0
          · omega
          · exfalso
            have hD1 : D = 1 := by
              rcases Nat.eq_zero_or_pos D with h | h
              · exact absurd h hD
              · omega
            apply hmem
            subst hD1; subst he1
            exact mem_ksList.mpr ⟨by omega, by omega, ⟨1, by omega⟩⟩
        · exact Or.inr ⟨hp1, hp2, r, by omega, hw⟩

theorem walkTail_matches {a b : List String} {xs ys x y : Nat}
    (wt : Walk a b 0 xs ys x y) :
    ∀ i : Int, (xs : Int) ≤ i → i < (x : Int) →
      i < (a.length : Int) ∧ i - ((xs : Int) - ys) < (b.length : Int) ∧
      jsGetS a i = jsGetS b (i - ((xs : Int) - ys)) := by
  intro i h1 h2
  obtain ⟨hoff, hle, hmat⟩ := walk_zero_spec wt
  obtain ⟨j, hij⟩ : ∃ j : Nat, (i : Int) = xs + j := ⟨(i - xs).toNat, by omega⟩
  have hjx : xs + j < x := by omega
  obtain ⟨hb1, hb2, hget⟩ := hmat j hjx
  refine ⟨by omega, by omega, ?_⟩
  rw [jsGetS, jsGetS, if_neg (by omega), if_neg (by omega)]
  have e1 : i.toNat = xs + j := by omega
  have e2 : (i - ((xs : Int) - ys)).toNat = ys + j := by omega
  rw [e1, e2]
  exact hget

/-- Furthest-reaching invariant (Myers): after round `D`, the value stored
for diagonal `k` dominates the endpoint of EVERY real `D`-cost walk from
the origin ending on diagonal `k`. -/
theorem Wmap_furthest (a b : List String) :
    ∀ (D : Nat) (k : Int) (x y : Nat),
      k ∈ ksList D → Walk a b D 0 0 x y → (x : Int) - y = k →
      (x : Int) ≤ storedVal a b (Wmap a b D) D k := by
  intro D
  induction D with
  | zero =>
    intro k x y hk hw hdiag
    obtain ⟨hkl, hkr, _⟩ := mem_ksList.mp hk
    have hk0 : k = 0 := by omega
    subst hk0
    have hchoose : chooseIns (Wmap a b 0) 0 0 = true := by
      rw [chooseIns_iff]
      left
      omega
    have hstart : startX (Wmap a b 0) 0 0 = 0 := by
      rw [startX, if_pos hchoose]
      rfl
    rw [storedVal, hstart]
    have hmat := walkTail_matches hw
    have hreach := snakeGo_reaches a b (a.length : Int) (b.length : Int)
      (x : Int) (((a.length : Int) - 0).toNat) 0 (0 - 0) rfl ?_
    · have hge := snakeGo_ge a b (a.length : Int) (b.length : Int)
        (((a.length : Int) - 0).toNat) 0 (0 - 0)
      rcases hreach with h | h
      · simpa using h
      · have : (x : Int) = 0 := by omega
        rw [this]
        simpa using hge
    · intro i hi1 hi2
      have := hmat i (by omega) (by omega)
      simpa using this
  | succ D ih =>
    intro k x y hk hw hdiag
    obtain ⟨hkl, hkr, hkpar⟩ := mem_ksList.mp hk
    obtain ⟨xm, ym, hcase⟩ := walk_decomp hw (by omega)
    have hD1 : D + 1 - 1 = D := by omega
    rw [hD1] at hcase
    rcases hcase with ⟨w1, hxm, wt⟩ | ⟨w1, hym, wt⟩
    · -- last costly move was a delete, from diagonal k - 1
      obtain ⟨hd1, hd2⟩ := w1.diag_bound
      have hpar1 := w1.parity
      obtain ⟨hoff, hle, _⟩ := walk_zero_spec wt
      have hkm : (xm : Int) - ym = k - 1 := by omega
      have hmem : (k - 1) ∈ ksList D := by
        rw [mem_ksList]
        refine ⟨by omega, by omega, ?_⟩
        obtain ⟨m, hm⟩ := hpar1
        exact ⟨m - ym, by push_cast at hm ⊢; omega⟩
      have hIH := ih (k - 1) xm ym hmem w1 hkm
      have hval : Wmap a b (D + 1) (k - 1) =
          some (storedVal a b (Wmap a b D) D (k - 1)) := by
        rw [Wmap, partialMap_mem hmem]
      have hstart : (xm : Int) + 1 ≤ startX (Wmap a b (D + 1)) (D + 1) k := by
        by_cases hc : chooseIns (Wmap a b (D + 1)) (D + 1) k = true
        · rcases chooseIns_iff.mp hc with hneg | ⟨hne, hlt⟩
          · omega
          · obtain ⟨w₁, w₂, hw₁, hw₂, hltv⟩ := jsLt_eq_true.mp hlt
            rw [hval] at hw₁
            have : w₁ = storedVal a b (Wmap a b D) D (k - 1) :=
              (Option.some_injective _ hw₁.symm)
            rw [startX, if_pos hc, hw₂, jsNum_some]
            omega
        · rw [startX, if_neg (by simpa using hc), hval, jsNum_some]
          omega
      rw [storedVal]
      set x₀ := startX (Wmap a b (D + 1)) (D + 1) k with hx₀
      have hmatches : ∀ i : Int, x₀ ≤ i → i < (x : Int) →
          i < (a.length : Int) ∧ i - (x₀ - (x₀ - k)) < (b.length : Int) ∧
          jsGetS a i = jsGetS b (i - (x₀ - (x₀ - k))) := by
        intro i hi1 hi2
        have hmt := walkTail_matches wt i (by push_cast; omega) hi2
        have e : ((xm : Int) + 1 : Int) - ym = k := by omega
        have e2 : x₀ - (x₀ - k) = k := by omega
        rw [e2]
        have e3 : ((xm + 1 : Nat) : Int) - (ym : Int) = k := by push_cast; omega
        rw [e3] at hmt
        exact hmt
      have hreach := snakeGo_reaches a b (a.length : Int) (b.length : Int)
        (x : Int) (((a.length : Int) - x₀).toNat) x₀ (x₀ - k) rfl hmatches
      have hge := snakeGo_ge a b (a.length : Int) (b.length : Int)
        (((a.length : Int) - x₀).toNat) x₀ (x₀ - k)
      rcases hreach with h | h
      · exact h
      · omega
    · -- last costly move was an insert, from diagonal k + 1
      obtain ⟨hd1, hd2⟩ := w1.diag_bound
      have hpar1 := w1.parity
      obtain ⟨hoff, hle, _⟩ := walk_zero_spec wt
      have hkm : (xm : Int) - ym = k + 1 := by omega
      have hmem : (k + 1) ∈ ksList D := by
        rw [mem_ksList]
        refine ⟨by omega, by omega, ?_⟩
        obtain ⟨m, hm⟩ := hpar1
        exact ⟨m - ym, by push_cast at hm ⊢; omega⟩
      have hIH := ih (k + 1) xm ym hmem w1 hkm
      have hval : Wmap a b (D + 1) (k + 1) =
          some (storedVal a b (Wmap a b D) D (k + 1)) := by
        rw [Wmap, partialMap_mem hmem]
      have hstart : (xm : Int) ≤ startX (Wmap a b (D + 1)) (D + 1) k := by
        by_cases hc : chooseIns (Wmap a b (D + 1)) (D + 1) k = true
        · rw [startX, if_pos hc, hval, jsNum_some]
          omega
        · have hcneg := hc
          rw [chooseIns_iff] at hcneg
          push_neg at hcneg
          obtain ⟨hne, hrest⟩ := hcneg
          have hkD : k ≠ (D + 1 : Nat) := by
            intro hcontra
            omega
          have hjl := hrest (by exact_mod_cast hkD)
          have hdef : (Wmap a b (D + 1) (k - 1)).isSome := by
            obtain ⟨_, hdef2, _⟩ := Wmap_inv a b (D + 1)
            exact hdef2 (k - 1) (by omega) (by omega)
          obtain ⟨w₃, hw₃⟩ := Option.isSome_iff_exists.mp hdef
          have hge3 : storedVal a b (Wmap a b D) D (k + 1) ≤ w₃ := by
            by_contra hcon
            apply hjl
            rw [jsLt_eq_true]
            exact ⟨w₃, _, hw₃, hval, by omega⟩
          rw [startX, if_neg (by simpa using hc), hw₃, jsNum_some]
          omega
      rw [storedVal]
      set x₀ := startX (Wmap a b (D + 1)) (D + 1) k with hx₀
      have hmatches : ∀ i : Int, x₀ ≤ i → i < (x : Int) →
          i < (a.length : Int) ∧ i - (x₀ - (x₀ - k)) < (b.length : Int) ∧
          jsGetS a i = jsGetS b (i - (x₀ - (x₀ - k))) := by
        intro i hi1 hi2
        have hmt := walkTail_matches wt i (by omega) hi2
        have e2 : x₀ - (x₀ - k) = k := by omega
        rw [e2]
        have e3 : (xm : Int) - ((ym + 1 : Nat) : Int) = k := by push_cast; omega
        rw [e3] at hmt
        exact hmt
      have hreach := snakeGo_reaches a b (a.length : Int) (b.length : Int)
        (x : Int) (((a.length : Int) - x₀).toNat) x₀ (x₀ - k) rfl hmatches
      have hge := snakeGo_ge a b (a.length : Int) (b.length : Int)
        (((a.length : Int) - x₀).toNat) x₀ (x₀ - k)
      rcases hreach with h | h
      · exact h
      · omega

theorem trig_of_walk (a b : List String) {c : Nat}
    (h : Walk a b c 0 0 a.length b.length) : trigRound a b c := by
  have hk : ((a.length : Int) - b.length) ∈ ksList c := by
    rw [mem_ksList]
    obtain ⟨h1, h2⟩ := h.diag_bound
    refine ⟨by omega, by omega, ?_⟩
    obtain ⟨m, hm⟩ := h.parity
    exact ⟨m - b.length, by push_cast at hm ⊢; omega⟩
  have hf := Wmap_furthest a b c ((a.length : Int) - b.length)
    a.length b.length hk h rfl
  exact ⟨_, hk, hf, by omega⟩

theorem trig_exists (a b : List String) : trigRound a b (a.length + b.length) :=
  trig_of_walk a b (walk_full a b)

/-- At a minimal triggering round, the early-return fires with the exact
coordinates `(N, M)` on the diagonal `N - M`, and `(N, M)` is reachable by
a real walk of exactly that cost. -/
theorem trigAt_exact (a b : List String) {d : Nat} {k : Int}
    (hk : k ∈ ksList d) (ht : trigAt a b (Wmap a b d) d k)
    (hleast : ∀ c, Walk a b c 0 0 a.length b.length → d ≤ c) :
    storedVal a b (Wmap a b d) d k = (a.length : Int) ∧
    k = (a.length : Int) - (b.length : Int) ∧
    Walk a b d 0 0 a.length b.length := by
  have hval : Wmap a b (d + 1) k = some (storedVal a b (Wmap a b d) d k) := by
    rw [Wmap, partialMap_mem hk]
  obtain ⟨_, _, hsound⟩ := Wmap_inv a b (d + 1)
  obtain ⟨ht1, ht2⟩ := ht
  rcases hsound k _ hval with ⟨he1, he2, _⟩ | ⟨hp1, hp2, r, hr, hw⟩
  · exfalso
    omega
  · obtain ⟨d', hd'le, hwalk⟩ := ewalk_clip hw
    have hminx : min (storedVal a b (Wmap a b d) d k) (a.length : Int) =
        (a.length : Int) := by omega
    have hminy : min (storedVal a b (Wmap a b d) d k - k) (b.length : Int) =
        (b.length : Int) := by omega
    rw [hminx, hminy] at hwalk
    have e1 : ((a.length : Int)).toNat = a.length := by omega
    have e2 : ((b.length : Int)).toNat = b.length := by omega
    rw [e1, e2] at hwalk
    have hled' : d ≤ d' := hleast d' hwalk
    have hexact : storedVal a b (Wmap a b d) d k = (a.length : Int) ∧
        storedVal a b (Wmap a b d) d k - k = (b.length : Int) ∧ d' = d := by
      constructor
      · omega
      constructor
      · omega
      · omega
    refine ⟨hexact.1, by omega, ?_⟩
    have : d' = d := hexact.2.2
    rwa [this] at hwalk

theorem partialMap_nil {a b : List String} {v : VMap} {D : Nat} :
    partialMap a b v D [] = v := by
  funext j
  rw [partialMap, if_neg (List.not_mem_nil j)]

/-- The inner `k` loop, characterized: starting with the diagonals `done`
of round `D` already stored, it returns `true` exactly when one of the
remaining diagonals fires the early return, and stores all remaining
diagonals when none does. -/
theorem innerRun_char (a b : List String) (v : VMap) (D : Nat) :
    ∀ (ks done : List Int), done ++ ks = ksList D →
      (((innerRun a b (a.length : Int) (b.length : Int) D
          (partialMap a b v D done) ks).2 = true) ↔
        ∃ k ∈ ks, trigAt a b v D k) ∧
      ((∀ k ∈ ks, ¬ trigAt a b v D k) →
        (innerRun a b (a.length : Int) (b.length : Int) D
          (partialMap a b v D done) ks).1 = partialMap a b v D (done ++ ks)) := by
  intro ks
  induction ks with
  | nil =>
    intro done hks
    refine ⟨by simp [innerRun], fun _ => by rw [List.append_nil]; rfl⟩
  | cons k ks' ih =>
    intro done hks
    have hdone_sub : ∀ i ∈ done, i ∈ ksList D := by
      intro i hi
      rw [← hks]
      exact List.mem_append_left _ hi
    have hkmem : k ∈ ksList D := by
      rw [← hks]
      exact List.mem_append_right _ (List.mem_cons_self _ _)
    have hsx : startX (partialMap a b v D done) D k = startX v D k :=
      startX_partial hdone_sub hkmem
    have hstored : storedVal a b (partialMap a b v D done) D k =
        storedVal a b v D k := storedVal_partial hdone_sub hkmem
    have hproc : procK a b (a.length : Int) (b.length : Int) D
        (partialMap a b v D done) k =
        (partialMap a b v D (done ++ [k]), storedVal a b v D k,
          storedVal a b v D k - k) := by
      rw [procK]
      have hp1 : (snakeGo a b (a.length : Int) (b.length : Int)
          ((a.length : Int) - startX (partialMap a b v D done) D k).toNat
          (startX (partialMap a b v D done) D k)
          (startX (partialMap a b v D done) D k - k)).1 =
          storedVal a b v D k := by
        rw [hsx, ← hstored, storedVal, hsx]
      have hp2 : (snakeGo a b (a.length : Int) (b.length : Int)
          ((a.length : Int) - startX (partialMap a b v D done) D k).toNat
          (startX (partialMap a b v D done) D k)
          (startX (partialMap a b v D done) D k - k)).2 =
          storedVal a b v D k - k := by
        have := snakeGo_sub a b (a.length : Int) (b.length : Int)
          ((a.length : Int) - startX (partialMap a b v D done) D k).toNat
          (startX (partialMap a b v D done) D k)
          (startX (partialMap a b v D done) D k - k)
        omega
      rw [hp1, hp2]
      have hvset : vSet (partialMap a b v D done) k (storedVal a b v D k) =
          partialMap a b v D (done ++ [k]) := vSet_partialMap
      rw [hvset]
    rw [innerRun, hproc]
    dsimp only
    by_cases htrig : trigAt a b v D k
    · obtain ⟨t1, t2⟩ := htrig
      rw [if_pos ⟨t1, t2⟩]
      constructor
      · constructor
        · intro _
          exact ⟨k, List.mem_cons_self _ _, t1, t2⟩
        · intro _; rfl
      · intro hnone
        exact absurd ⟨t1, t2⟩ (hnone k (List.mem_cons_self _ _))
    · rw [if_neg (by rw [trigAt] at htrig; exact htrig)]
      have hks' : (done ++ [k]) ++ ks' = ksList D := by
        rw [List.append_assoc]
        simpa using hks
      obtain ⟨ihiff, ihrun⟩ := ih (done ++ [k]) hks'
      constructor
      · rw [ihiff]
        constructor
        · rintro ⟨k', hk', ht'⟩
          exact ⟨k', List.mem_cons_of_mem _ hk', ht'⟩
        · rintro ⟨k', hk', ht'⟩
          rcases List.mem_cons.mp hk' with h | h
          · subst h; exact absurd ht' htrig
          · exact ⟨k', h, ht'⟩
      · intro hnone
        rw [ihrun (fun k' hk' => hnone k' (List.mem_cons_of_mem _ hk'))]
        rw [List.append_assoc]
        rfl

/-- The outer loop returns at the first triggering round, with the trace
being the round-entry maps of all rounds up to it. -/
theorem runFrom_spec (a b : List String) :
    ∀ (fuel d0 : Nat),
      (∀ D, D < d0 → ¬ trigRound a b D) →
      (∃ c, d0 ≤ c ∧ c < d0 + fuel ∧ trigRound a b c) →
      ∃ d, trigRound a b d ∧ (∀ D, D < d → ¬ trigRound a b D) ∧
        runFrom a b (a.length : Int) (b.length : Int) fuel d0 (Wmap a b d0)
          ((List.range d0).map (Wmap a b)) =
          some (d, (List.range (d + 1)).map (Wmap a b)) := by
  intro fuel
  induction fuel with
  | zero =>
    intro d0 _ hex
    obtain ⟨c, h1, h2, _⟩ := hex
    omega
  | succ fuel ih =>
    intro d0 hprev hex
    rw [runFrom]
    have htrace : (List.range d0).map (Wmap a b) ++ [Wmap a b d0] =
        (List.range (d0 + 1)).map (Wmap a b) := by
      rw [List.range_succ, List.map_append]
      rfl
    have hchar := innerRun_char a b (Wmap a b d0) d0 (ksList d0) []
      (by rw [List.nil_append])
    rw [partialMap_nil] at hchar
    obtain ⟨hiff, hrun⟩ := hchar
    by_cases htr : trigRound a b d0
    · have hbtrue : (innerRun a b (a.length : Int) (b.length : Int) d0
          (Wmap a b d0) (ksList d0)).2 = true := by
        rw [hiff]
        exact htr
      rw [hbtrue]
      rw [if_pos rfl]
      exact ⟨d0, htr, hprev, by rw [htrace]⟩
    · have hnone : ∀ k ∈ ksList d0, ¬ trigAt a b (Wmap a b d0) d0 k := by
        intro k hk ht
        exact htr ⟨k, hk, ht⟩
      have hbfalse : (innerRun a b (a.length : Int) (b.length : Int) d0
          (Wmap a b d0) (ksList d0)).2 = false := by
        rw [Bool.eq_false_iff]
        intro hc
        exact htr (hiff.mp hc)
      rw [hbfalse]
      rw [if_neg (by simp)]
      have hnext : (innerRun a b (a.length : Int) (b.length : Int) d0
          (Wmap a b d0) (ksList d0)).1 = Wmap a b (d0 + 1) := by
        rw [hrun hnone, Wmap]
        rfl
      rw [hnext, htrace]
      apply ih (d0 + 1)
      · intro D hD
        rcases Nat.lt_succ_iff_lt_or_eq.mp hD with h | h
        · exact hprev D h
        · subst h; exact htr
      · obtain ⟨c, h1, h2, h3⟩ := hex
        refine ⟨c, ?_, by omega, h3⟩
        rcases Nat.eq_or_lt_of_le h1 with h | h
        · subst h; exact absurd h3 htr
        · omega

/-- The main run theorem: `myersDiff` builds its path from the trace of
round maps at the minimal cost `d` at which `(N, M)` is reachable, and the
early return fired with exact coordinates. -/
theorem myers_main (a b : List String) :
    ∃ d, myersDiff a b =
        buildPath a b ((List.range (d + 1)).map (Wmap a b)) d ∧
      Walk a b d 0 0 a.length b.length ∧
      (∀ c, Walk a b c 0 0 a.length b.length → d ≤ c) ∧
      storedVal a b (Wmap a b d) d ((a.length : Int) - (b.length : Int)) =
        (a.length : Int) ∧
      ((a.length : Int) - (b.length : Int)) ∈ ksList d := by
  obtain ⟨d, htrig, hprev, hrun⟩ := runFrom_spec a b (a.length + b.length + 1) 0
    (fun D hD => absurd hD (by omega))
    ⟨a.length + b.length, by omega, by omega, trig_exists a b⟩
  have hleast : ∀ c, Walk a b c 0 0 a.length b.length → d ≤ c := by
    intro c hw
    by_contra hlt
    exact hprev c (by omega) (trig_of_walk a b hw)
  obtain ⟨k, hk, ht⟩ := htrig
  obtain ⟨hstored, hkval, hwalk⟩ := trigAt_exact a b hk ht hleast
  refine ⟨d, ?_, hwalk, hleast, by rw [← hkval]; exact hstored, by
    rw [← hkval]; exact hk⟩
  rw [myersDiff]
  have h0 : Wmap a b 0 = vInit := rfl
  rw [← h0]
  have hempty : ([] : List VMap) = (List.range 0).map (Wmap a b) := rfl
  rw [hempty, hrun]

-- ### Backtracking (`buildPath`)

theorem traceGet_range {a b : List String} {d D : Nat} (h : D ≤ d) :
    traceGet ((List.range (d + 1)).map (Wmap a b)) D = Wmap a b D := by
  rw [traceGet]
  have h1 : ((List.range (d + 1)).map (Wmap a b)).get? D =
      some (Wmap a b D) := by
    rw [List.get?_map, List.get?_range (by omega)]
    rfl
  rw [h1]
  rfl

theorem origTexts_equals_map (f : Nat → String) (l : List Nat) :
    origTexts (l.map (fun i => Op.equal (f i))) = l.map f := by
  induction l with
  | nil => rfl
  | cons i t ih =>
    simp only [List.map_cons, origTexts_cons_equal, ih]

theorem corrTexts_equals_map (f : Nat → String) (l : List Nat) :
    corrTexts (l.map (fun i => Op.equal (f i))) = l.map f := by
  induction l with
  | nil => rfl
  | cons i t ih =>
    simp only [List.map_cons, corrTexts_cons_equal, ih]

theorem nonEqCount_equals_map (f : Nat → String) (l : List Nat) :
    nonEqCount (l.map (fun i => Op.equal (f i))) = 0 := by
  induction l with
  | nil => rfl
  | cons i t ih =>
    simp only [List.map_cons, nonEqCount_cons_equal, ih]

theorem nonEqCount_append (l₁ l₂ : List Op) :
    nonEqCount (l₁ ++ l₂) = nonEqCount l₁ + nonEqCount l₂ := by
  simp [nonEqCount, List.filter_append]

/-- The values read at in-range indices, as a slice of the list. -/
theorem vals_eq_drop_take (a : List String) (lo : Nat) :
    ∀ (n : Nat), lo + n ≤ a.length →
      (List.range n).map (fun i : Nat => jsIdx a ((lo : Int) + i)) =
        (a.drop lo).take n := by
  intro n
  induction n with
  | zero => intro _; rfl
  | succ n ih =>
    intro h
    rw [List.range_succ, List.map_append, ih (by omega), List.take_succ]
    congr 1
    have hg2 : (List.drop lo a)[n]? = some a[lo + n] := by
      rw [List.getElem?_drop]
      exact List.getElem?_eq_getElem (by omega)
    rw [hg2]
    simp only [List.map_cons, List.map_nil, Option.toList_some]
    have hjs : jsIdx a ((lo : Int) + n) = a[lo + n] := by
      rw [jsIdx, jsGetS, if_neg (by omega)]
      have e : ((lo : Int) + n).toNat = lo + n := by omega
      rw [e, List.get?_eq_getElem?, List.getElem?_eq_getElem (by omega)]
      rfl
    rw [hjs]

/-- Closed form of the backtracking equal-run: it walks `n` steps, where
`n` is the nonnegative part of `min (x - prevX) (y - prevY)`, emitting
(in final order) the equal operations for positions `x - n, ..., x - 1`. -/
theorem eqRunGo_spec (a : List String) (prevX prevY : Int) :
    ∀ (fuel : Nat) (x y : Int) (n : Nat), fuel = (x - prevX).toNat →
      (n : Int) = max 0 (min (x - prevX) (y - prevY)) →
      eqRunGo a prevX prevY fuel x y =
        ((List.range n).map (fun i : Nat => Op.equal (jsIdx a (x - n + i))),
         x - n, y - n) := by
  intro fuel
  induction fuel with
  | zero =>
    intro x y n hf hn
    have hn0 : n = 0 := by omega
    subst hn0
    rw [eqRunGo]
    simp
  | succ f ih =>
    intro x y n hf hn
    rw [eqRunGo]
    by_cases hc : x > prevX ∧ y > prevY
    · rw [if_pos hc]
      obtain ⟨m, rfl⟩ : ∃ m, n = m + 1 := ⟨n - 1, by omega⟩
      rw [ih (x - 1) (y - 1) m (by omega) (by push_cast at hn ⊢; omega)]
      dsimp only
      simp only [Prod.mk.injEq]
      refine ⟨?_, by push_cast; ring, by push_cast; ring⟩
      rw [List.range_succ, List.map_append]
      congr 1
      · apply List.map_congr_left
        intro i _
        congr 2
        push_cast
        ring
      · simp only [List.map_cons, List.map_nil]
        congr 2
        push_cast
        ring
    · rw [if_neg hc]
      have hn0 : n = 0 := by
        rcases not_and_or.mp hc with h | h <;> omega
      subst hn0
      simp

theorem startX_le_storedVal (a b : List String) (v : VMap) (D : Nat) (k : Int) :
    startX v D k ≤ storedVal a b v D k := by
  rw [storedVal]
  exact snakeGo_ge a b _ _ _ _ _

theorem storedVal_matches (a b : List String) (v : VMap) (D : Nat) (k : Int) :
    ∀ i : Int, startX v D k ≤ i → i < storedVal a b v D k →
      i < (a.length : Int) ∧ i - k < (b.length : Int) ∧
      jsGetS a i = jsGetS b (i - k) := by
  intro i h1 h2
  rw [storedVal] at h2
  have hm := snakeGo_matches a b (a.length : Int) (b.length : Int)
    (((a.length : Int) - startX v D k).toNat) (startX v D k)
    (startX v D k - k) i h1 h2
  have e : startX v D k - (startX v D k - k) = k := by omega
  rwa [e] at hm

/-- A prefix of the list split at `lo`, with the tail written as the values
read at positions `lo, ..., x - 1`. -/
theorem take_split_vals (l : List String) {lo x : Int} (h0 : 0 ≤ lo)
    (hlx : lo ≤ x) (hxN : x ≤ (l.length : Int)) :
    l.take x.toNat = l.take lo.toNat ++
      (List.range (x - lo).toNat).map (fun i : Nat => jsIdx l (lo + i)) := by
  have hb : lo.toNat + (x - lo).toNat ≤ l.length := by omega
  have hv := vals_eq_drop_take l lo.toNat (x - lo).toNat hb
  have hfun : (List.range (x - lo).toNat).map
      (fun i : Nat => jsIdx l (lo + i)) =
      (List.range (x - lo).toNat).map
      (fun i : Nat => jsIdx l ((lo.toNat : Int) + i)) := by
    apply List.map_congr_left
    intro i _
    congr 1
    omega
  rw [hfun, hv, ← List.take_add]
  congr 1
  omega

/-- Variant splitting off one leading value. -/
theorem take_split_vals_cons (l : List String) {pv x : Int} (h0 : 0 ≤ pv)
    (hlx : pv < x) (hxN : x ≤ (l.length : Int)) :
    l.take x.toNat = l.take pv.toNat ++
      (jsIdx l pv ::
        (List.range (x - (pv + 1)).toNat).map
          (fun i : Nat => jsIdx l ((pv + 1) + i))) := by
  rw [take_split_vals l h0 (by omega) hxN]
  congr 1
  have hn : (x - pv).toNat = (x - (pv + 1)).toNat + 1 := by omega
  rw [hn, List.range_succ_eq_map, List.map_cons, List.map_map]
  congr 1
  · congr 1
    omega
  · apply List.map_congr_left
    intro i _
    simp only [Function.comp_apply]
    congr 1
    push_cast
    ring

/-- The diagonal read during backtracking at level `Lm + 1`: the preferred
neighbour diagonal belongs to round `Lm`, its entry in `trace[Lm + 1]` is
the value stored during round `Lm`, and that value is a sound point. -/
theorem backtrack_read (a b : List String) {Lm : Nat} {k pk : Int}
    (hk : k ∈ ksList (Lm + 1))
    (hpk : (pk = k + 1 ∧ chooseIns (Wmap a b (Lm + 1)) (Lm + 1) k = true) ∨
           (pk = k - 1 ∧ ¬ chooseIns (Wmap a b (Lm + 1)) (Lm + 1) k = true)) :
    pk ∈ ksList Lm ∧
    Wmap a b (Lm + 1) pk = some (storedVal a b (Wmap a b Lm) Lm pk) ∧
    0 ≤ storedVal a b (Wmap a b Lm) Lm pk ∧
    0 ≤ storedVal a b (Wmap a b Lm) Lm pk - pk := by
  obtain ⟨hkl, hkr, hkp⟩ := mem_ksList.mp hk
  have hmem : pk ∈ ksList Lm := by
    rcases hpk with ⟨hpk1, hc⟩ | ⟨hpk1, hc⟩
    · rcases chooseIns_iff.mp hc with h | ⟨hne, _⟩
      · exact mem_ksList.mpr ⟨by omega, by omega, by omega⟩
      · exact mem_ksList.mpr ⟨by omega, by omega, by omega⟩
    · have hne : k ≠ -((Lm + 1 : Nat) : Int) := by
        intro h
        exact hc (chooseIns_iff.mpr (Or.inl h))
      exact mem_ksList.mpr ⟨by omega, by omega, by omega⟩
  have hWeq : Wmap a b (Lm + 1) = partialMap a b (Wmap a b Lm) Lm (ksList Lm) := rfl
  have hval : Wmap a b (Lm + 1) pk = some (storedVal a b (Wmap a b Lm) Lm pk) := by
    rw [hWeq]
    exact partialMap_mem hmem
  refine ⟨hmem, hval, ?_⟩
  rcases (Wmap_inv a b (Lm + 1)).2.2 pk _ hval with ⟨h1, _, h3⟩ | ⟨h1, h2, _⟩
  · exfalso
    obtain ⟨hl, hr, _⟩ := mem_ksList.mp hmem
    omega
  · exact ⟨h1, h2⟩

/-- Backtracking invariant: from any sound state of level `L` (diagonal in
round `L`'s list, coordinates inside the grid, `x` between the round's
chosen start and the stored endpoint of its snake), `bpLoop` emits
operations whose original side is exactly `a[0..x)`, whose corrected side
is exactly `b[0..y)`, and which contain exactly `L` non-equal operations. -/
theorem bpLoop_spec (a b : List String) (d : Nat) :
    ∀ (L : Nat), L ≤ d → ∀ (x y : Int), (x - y) ∈ ksList L →
      0 ≤ x → 0 ≤ y → x ≤ (a.length : Int) → y ≤ (b.length : Int) →
      startX (Wmap a b L) L (x - y) ≤ x →
      x ≤ storedVal a b (Wmap a b L) L (x - y) →
      origTexts (bpLoop a b ((List.range (d + 1)).map (Wmap a b)) L x y) =
        a.take x.toNat ∧
      corrTexts (bpLoop a b ((List.range (d + 1)).map (Wmap a b)) L x y) =
        b.take y.toNat ∧
      nonEqCount (bpLoop a b ((List.range (d + 1)).map (Wmap a b)) L x y) = L := by
  intro L
  induction L with
  | zero =>
    intro _ x y hk hx0 hy0 hxN hyM hsx hstored
    have hk0 : x - y = 0 := by
      obtain ⟨h1, h2, _⟩ := mem_ksList.mp hk
      omega
    have hc : chooseIns (Wmap a b 0) 0 (x - y) = true :=
      chooseIns_iff.mpr (Or.inl (by omega))
    have hv1 : Wmap a b 0 (x - y + 1) = some 0 := by
      rw [show x - y + 1 = (1 : Int) from by omega]
      rfl
    have hsx0 : startX (Wmap a b 0) 0 (x - y) = 0 := by
      rw [startX, if_pos hc, hv1, jsNum_some]
    have hp : prevOf (Wmap a b 0) 0 x y = (0, 0 - (x - y + 1)) := by
      rw [prevOf]
      rw [if_pos hc, hv1, jsNum_some]
    set n := x.toNat with hndef
    have hn : (n : Int) = max 0 (min (x - 0) (y - (0 - (x - y + 1)))) := by
      omega
    have heq := eqRunGo_spec a 0 (0 - (x - y + 1)) (x - 0).toNat x y n rfl hn
    rw [bpLoop]
    rw [traceGet_range (Nat.zero_le d), hp]
    dsimp only
    rw [heq]
    dsimp only
    rw [origTexts_equals_map, corrTexts_equals_map, nonEqCount_equals_map]
    rw [show x - (n : Int) = (0 : Int) from by omega]
    refine ⟨?_, ?_, rfl⟩
    · rw [take_split_vals a (show (0:Int) ≤ 0 from le_rfl) (show (0:Int) ≤ x from hx0) hxN]
      rw [show ((0:Int)).toNat = 0 from rfl]
      simp only [List.take_zero, List.nil_append]
      rw [show (x - 0).toNat = n from by omega]
    · have hb : ∀ i ∈ List.range n,
          jsIdx a ((0:Int) + (i:Int)) = jsIdx b ((0:Int) + (i:Int)) := by
        intro i hi
        have hi' : i < n := List.mem_range.mp hi
        obtain ⟨h1, h2, hm⟩ := storedVal_matches a b (Wmap a b 0) 0 (x - y)
          ((0:Int) + (i:Int)) (by rw [hsx0]; omega) (by omega)
        rw [show (0:Int) + (i:Int) - (x - y) = (0:Int) + (i:Int) from by omega] at hm
        rw [jsIdx, jsIdx, hm]
      rw [List.map_congr_left hb]
      rw [take_split_vals b (show (0:Int) ≤ 0 from le_rfl) (show (0:Int) ≤ y from hy0) hyM]
      rw [show ((0:Int)).toNat = 0 from rfl]
      simp only [List.take_zero, List.nil_append]
      rw [show (y - 0).toNat = n from by omega]
  | succ Lm ih =>
    intro hL x y hk hx0 hy0 hxN hyM hsx hstored
    by_cases hc : chooseIns (Wmap a b (Lm + 1)) (Lm + 1) (x - y) = true
    · -- insertion step: the previous diagonal is `k + 1`
      obtain ⟨hmem, hval, hpx0, hpy0⟩ := backtrack_read a b hk (Or.inl ⟨rfl, hc⟩)
      set pX := storedVal a b (Wmap a b Lm) Lm (x - y + 1) with hpX
      have hsx0 : startX (Wmap a b (Lm + 1)) (Lm + 1) (x - y) = pX := by
        rw [startX, if_pos hc, hval, jsNum_some]
      have hpxle : pX ≤ x := by
        rw [hsx0] at hsx
        exact hsx
      set n := (x - pX).toNat with hndef
      have hn : (n : Int) = max 0 (min (x - pX) (y - (pX - (x - y + 1)))) := by
        omega
      have hp : prevOf (Wmap a b (Lm + 1)) (Lm + 1) x y = (pX, pX - (x - y + 1)) := by
        rw [prevOf]
        rw [if_pos hc, hval, jsNum_some]
      have heq := eqRunGo_spec a pX (pX - (x - y + 1)) (x - pX).toNat x y n rfl hn
      rw [bpLoop]
      rw [traceGet_range (show Lm + 1 ≤ d from hL), hp]
      dsimp only
      rw [heq]
      dsimp only
      rw [if_neg (show ¬ (x - (n:Int) > pX) from by omega)]
      rw [show y - (n:Int) - 1 = pX - (x - y + 1) from by omega]
      rw [show x - (n:Int) = pX from by omega]
      obtain ⟨iho, ihc2, ihn⟩ := ih (by omega) pX (pX - (x - y + 1))
        (by rw [show pX - (pX - (x - y + 1)) = x - y + 1 from by omega]; exact hmem)
        hpx0 hpy0 (by omega) (by omega)
        (by rw [show pX - (pX - (x - y + 1)) = x - y + 1 from by omega, hpX]
            exact startX_le_storedVal a b (Wmap a b Lm) Lm (x - y + 1))
        (by rw [show pX - (pX - (x - y + 1)) = x - y + 1 from by omega, ← hpX])
      refine ⟨?_, ?_, ?_⟩
      · rw [origTexts_append, origTexts_cons_insert, origTexts_equals_map, iho]
        rw [take_split_vals a hpx0 hpxle hxN]
      · rw [corrTexts_append, corrTexts_cons_insert, corrTexts_equals_map, ihc2]
        have hb : ∀ i ∈ List.range n,
            jsIdx a (pX + (i:Int)) =
              jsIdx b (pX - (x - y + 1) + 1 + (i:Int)) := by
          intro i hi
          have hi' : i < n := List.mem_range.mp hi
          obtain ⟨h1, h2, hm⟩ := storedVal_matches a b (Wmap a b (Lm + 1)) (Lm + 1)
            (x - y) (pX + (i:Int)) (by rw [hsx0]; omega) (by omega)
          rw [jsIdx, jsIdx]
          rw [show pX - (x - y + 1) + 1 + (i:Int) = pX + (i:Int) - (x - y) from by omega]
          rw [hm]
        rw [List.map_congr_left hb]
        rw [take_split_vals_cons b hpy0 (show pX - (x - y + 1) < y from by omega) hyM]
        rw [show (y - (pX - (x - y + 1) + 1)).toNat = n from by omega]
      · rw [nonEqCount_append, nonEqCount_cons_insert, nonEqCount_equals_map, ihn]
    · -- deletion step: the previous diagonal is `k - 1`
      obtain ⟨hmem, hval, hpx0, hpy0⟩ := backtrack_read a b hk (Or.inr ⟨rfl, hc⟩)
      set pX := storedVal a b (Wmap a b Lm) Lm (x - y - 1) with hpX
      have hsx0 : startX (Wmap a b (Lm + 1)) (Lm + 1) (x - y) = pX + 1 := by
        rw [startX, if_neg hc, hval, jsNum_some]
      have hpxlt : pX + 1 ≤ x := by
        rw [hsx0] at hsx
        exact hsx
      set n := (x - (pX + 1)).toNat with hndef
      have hn : (n : Int) = max 0 (min (x - pX) (y - (pX - (x - y - 1)))) := by
        omega
      have hp : prevOf (Wmap a b (Lm + 1)) (Lm + 1) x y = (pX, pX - (x - y - 1)) := by
        rw [prevOf]
        rw [if_neg hc, hval, jsNum_some]
      have heq := eqRunGo_spec a pX (pX - (x - y - 1)) (x - pX).toNat x y n rfl hn
      rw [bpLoop]
      rw [traceGet_range (show Lm + 1 ≤ d from hL), hp]
      dsimp only
      rw [heq]
      dsimp only
      rw [if_pos (show x - (n:Int) > pX from by omega)]
      rw [show x - (n:Int) - 1 = pX from by omega]
      rw [show y - (n:Int) = pX - (x - y - 1) from by omega]
      rw [show x - (n:Int) = pX + 1 from by omega]
      obtain ⟨iho, ihc2, ihn⟩ := ih (by omega) pX (pX - (x - y - 1))
        (by rw [show pX - (pX - (x - y - 1)) = x - y - 1 from by omega]; exact hmem)
        hpx0 hpy0 (by omega) (by omega)
        (by rw [show pX - (pX - (x - y - 1)) = x - y - 1 from by omega, hpX]
            exact startX_le_storedVal a b (Wmap a b Lm) Lm (x - y - 1))
        (by rw [show pX - (pX - (x - y - 1)) = x - y - 1 from by omega, ← hpX])
      refine ⟨?_, ?_, ?_⟩
      · rw [origTexts_append, origTexts_cons_delete, origTexts_equals_map, iho]
        rw [take_split_vals_cons a hpx0 (show pX < x from by omega) hxN]
      · rw [corrTexts_append, corrTexts_cons_delete, corrTexts_equals_map, ihc2]
        have hb : ∀ i ∈ List.range n,
            jsIdx a (pX + 1 + (i:Int)) =
              jsIdx b (pX - (x - y - 1) + (i:Int)) := by
          intro i hi
          have hi' : i < n := List.mem_range.mp hi
          obtain ⟨h1, h2, hm⟩ := storedVal_matches a b (Wmap a b (Lm + 1)) (Lm + 1)
            (x - y) (pX + 1 + (i:Int)) (by rw [hsx0]; omega) (by omega)
          rw [jsIdx, jsIdx]
          rw [show pX - (x - y - 1) + (i:Int) = pX + 1 + (i:Int) - (x - y) from by omega]
          rw [hm]
        rw [List.map_congr_left hb]
        rw [take_split_vals b hpy0 (show pX - (x - y - 1) ≤ y from by omega) hyM]
        rw [show (y - (pX - (x - y - 1))).toNat = n from by omega]
      · rw [nonEqCount_append, nonEqCount_cons_delete, nonEqCount_equals_map, ihn]

/-- `myersDiff` returns a valid shortest edit script: its original side is
exactly `a`, its corrected side is exactly `b`, and no operation sequence
with those two sides has fewer non-equal operations. -/
theorem myers_script (a b : List String) :
    origTexts (myersDiff a b) = a ∧
    corrTexts (myersDiff a b) = b ∧
    ∀ ops : List Op, origTexts ops = a → corrTexts ops = b →
      nonEqCount (myersDiff a b) ≤ nonEqCount ops := by
  obtain ⟨d, hEq, hwalk, hleast, hstored, hkmem⟩ := myers_main a b
  have hsx : startX (Wmap a b d) d ((a.length : Int) - (b.length : Int)) ≤
      (a.length : Int) := by
    have := startX_le_storedVal a b (Wmap a b d) d
      ((a.length : Int) - (b.length : Int))
    omega
  obtain ⟨ho, hc, hn⟩ := bpLoop_spec a b d d le_rfl
    (a.length : Int) (b.length : Int) hkmem
    (by omega) (by omega) le_rfl le_rfl hsx (by omega)
  rw [buildPath] at hEq
  rw [hEq]
  rw [show ((a.length : Int)).toNat = a.length from by omega] at ho
  rw [show ((b.length : Int)).toNat = b.length from by omega] at hc
  rw [List.take_length] at ho hc
  refine ⟨ho, hc, ?_⟩
  intro ops hops1 hops2
  have hw := script_walk a b ops 0 0 (by simpa using hops1)
    (by simpa using hops2) (by omega) (by omega)
  have := hleast _ hw
  omega

-- ### C1, C3, C2: round-trips and minimality of the engine

/-- The base word diff round-trips on both sides. -/
theorem computeWordDiff_roundtrip (a b : String) :
    String.join (origTexts (computeWordDiff a b)) = a ∧
    String.join (corrTexts (computeWordDiff a b)) = b := by
  obtain ⟨ho, hc, _⟩ := myers_script (tokenize a) (tokenize b)
  rw [computeWordDiff, ho, hc]
  exact ⟨(tokenize_lossless a).1, (tokenize_lossless b).1⟩

/-- **C1**: round-trip of the plain Myers diff: for every pair of strings
`a` and `b`, concatenating the texts of the `Equal`/`Delete` operations of
`myersDiff (tokenize a) (tokenize b)` yields exactly `a`, and concatenating
the texts of the `Equal`/`Insert` operations yields exactly `b`. -/
theorem C1_myers_roundtrip (a b : String) :
    String.join (origTexts (myersDiff (tokenize a) (tokenize b))) = a ∧
    String.join (corrTexts (myersDiff (tokenize a) (tokenize b))) = b := by
  obtain ⟨h1, h2⟩ := computeWordDiff_roundtrip a b
  rw [computeWordDiff] at h1 h2
  exact ⟨h1, h2⟩

/-- **C3**: minimality of the Myers engine: for every pair of token
sequences `a` and `b`, `myersDiff a b` is an operation sequence
transforming `a` into `b` (original-side tokens exactly `a`, corrected-side
tokens exactly `b`), and every operation sequence whose original side is
`a` and whose corrected side is `b` has at least as many non-`Equal`
operations. -/
theorem C3_myers_minimality (a b : List String) :
    origTexts (myersDiff a b) = a ∧
    corrTexts (myersDiff a b) = b ∧
    ∀ ops : List Op, origTexts ops = a → corrTexts ops = b →
      nonEqCount (myersDiff a b) ≤ nonEqCount ops :=
  myers_script a b

/-- **C2, amended**: whenever `computePatchAwareDiff` returns an operation
sequence at all, that sequence satisfies both round-trips; for some patch
lists (see `C2_counterexample`) the reconciler loop never terminates and no
sequence is returned. -/
theorem C2_roundtrip_on_termination (original corrected : String)
    (ps : List Patch) (ops : List Op)
    (h : computePatchAwareDiff original corrected ps = some ops) :
    String.join (origTexts ops) = original ∧
    String.join (corrTexts ops) = corrected := by
  rw [computePatchAwareDiff] at h
  by_cases hlen : ps.length = 0
  · rw [if_pos hlen] at h
    have hops : ops = computeWordDiff original corrected :=
      (Option.some_injective _ h).symm
    rw [hops]
    exact computeWordDiff_roundtrip original corrected
  · rw [if_neg hlen] at h
    exact enhanceWithPatches_roundtrip h

/-- Witness for `C2_roundtrip_on_termination` at a concrete input. -/
theorem C2_roundtrip_witness :
    computePatchAwareDiff "x" "y" [⟨"x", "y"⟩] =
      some [Op.delete "x", Op.insert "y"] ∧
    String.join (origTexts [Op.delete "x", Op.insert "y"]) = "x" ∧
    String.join (corrTexts [Op.delete "x", Op.insert "y"]) = "y" :=
  ⟨by decide, C2_roundtrip_on_termination "x" "y" [⟨"x", "y"⟩]
    [Op.delete "x", Op.insert "y"] (by decide)⟩
